import Mathlib

/-!
Sample-select threshold selection (HIP backend of the parallel ILUT factorization).

Shallow embedding of `hip/factorization/par_ilut_kernels.hip.cpp`.

* `IndexType` values (sizes, ranks, bucket ids, counts) are `Int`.
* `ValueType = remove_complex<ValueType>` is instantiated with a real type, modelled by `Int`;
  the key of a value is its magnitude.
* The device kernels live in `common/factorization/par_ilut_kernels.hpp.inc`, which is not
  among the embedded sources; they are modelled from the specification.  The constants
  `kernel::searchtree_width` and `kernel::basecase_size` are parameters of the development;
  the oracles are `unsigned char`, so results are stated for `searchtree_width ≤ 256`.
* An out-of-bounds access is an explicit outcome (`Outcome.undefined`).
* A run records the host-side steps it makes (`Run.trace`), so that claims about the control
  flow of the driver are statements about traces.
-/

namespace ParIlut

/-! ## Constants and integer helpers -/

/-- The constant `default_block_size` of the HIP backend. -/
def default_block_size : Int := 512

/-- The constant `items_per_thread` of the HIP backend. -/
def items_per_thread : Int := 2

/-- Modelled from the spec: the helper `ceildiv` of `ginkgo/core/base/math.hpp` (source
missing), the quotient rounded up, with the truncating division of C++. -/
def ceildiv (num den : Int) : Int := Int.tdiv (num + den - 1) den

/-- Magnitude of a value (the key the selection works on). -/
def key (v : Int) : Int := (Int.natAbs v : Int)

/-- Read `a[i]` for an `IndexType` index; `none` is an out-of-bounds access. -/
def readAt (a : List Int) (i : Int) : Option Int :=
  if 0 ≤ i then a.get? i.toNat else none

/-! ## `std::upper_bound` -/

/-- The loop of `std::upper_bound` over `a[first .. first + len)`: halve the range, go left
when `val < a[middle]`, right otherwise.  The first argument bounds the number of rounds. -/
def upper_bound_loop : Nat → List Int → Nat → Nat → Int → Nat
  | 0, _, first, _, _ => first
  | fuel + 1, a, first, len, val =>
    if len = 0 then first
    else
      let half := len / 2
      let middle := first + half
      if val < a.getD middle 0 then upper_bound_loop fuel a first half val
      else upper_bound_loop fuel a (middle + 1) (len - half - 1) val

/-- The call `std::upper_bound(a, a + len, val)`: offset of the returned iterator from `a`. -/
def upper_bound (a : List Int) (len : Nat) (val : Int) : Nat :=
  upper_bound_loop len a 0 len val

/-- Ascending sort of a list of keys. -/
def sortKeys (l : List Int) : List Int := l.insertionSort (· ≤ ·)

/-! ## Device kernels -/

/-- Number of consecutive entries one thread block works on: `default_block_size` threads with
`items_per_thread` entries each. -/
def partition_size : Nat := (default_block_size * items_per_thread).toNat

/-- Read the entries of `values` at the given positions; `none` is an out-of-bounds access. -/
def readAll (values : List Int) : List Nat → Option (List Int)
  | [] => some []
  | i :: is =>
    match values.get? i, readAll values is with
    | some v, some vs => some (v :: vs)
    | _, _ => none

/-- Position of the `i`-th probe of the strided sample of an array of `size` entries. -/
def sample_index (searchtree_width : Nat) (size : Int) (i : Nat) : Nat :=
  i * size.toNat / searchtree_width

/-- Modelled from the spec: the kernel `kernel::build_searchtree` (its source,
`common/factorization/par_ilut_kernels.hpp.inc`, is missing).  A sample of
`searchtree_width` keys is drawn from the working array at a fixed stride (probe `i` at
position `⌊i * size / searchtree_width⌋`, so a working array smaller than the sample is probed
repeatedly at the same positions), sorted, and all but the smallest become the
`searchtree_width - 1` splitters. -/
def build_searchtree (searchtree_width : Nat) (values : List Int) (size : Int) :
    Option (List Int) :=
  match readAll values
      ((List.range searchtree_width).map (sample_index searchtree_width size)) with
  | some probes => some (sortKeys (probes.map key)).tail
  | none => none

/-- Modelled from the spec: classification of a key by the search tree (part of the missing
kernel `kernel::count_buckets`): a binary search over the splitters; the bucket id is the
offset of the first splitter greater than the key. -/
def classify (tree : List Int) (k : Int) : Nat := upper_bound tree tree.length k

/-- The entries of the working array that thread block `b` works on. -/
def block_items {α : Type} (l : List α) (size : Int) (b : Nat) : List α :=
  ((l.take size.toNat).drop (b * partition_size)).take partition_size

/-- Modelled from the spec: the kernel `kernel::count_buckets` (source missing), launched with
`num_blocks` blocks.  Every block classifies the keys of its partition, stores the bucket ids
as `unsigned char` oracles and writes its histogram as one row of `partial_counts`. -/
def count_buckets (searchtree_width : Nat) (values : List Int) (size : Int) (tree : List Int)
    (num_blocks : Int) : Option (List (List Int) × List Nat) :=
  if values.length < size.toNat then none
  else
    let oracles := (List.range num_blocks.toNat).map fun b =>
      (block_items values size b).map fun v => classify tree (key v) % 256
    some (oracles.map fun o => (List.range searchtree_width).map fun j => (o.count j : Int),
          oracles.flatten)

/-- Column `j` of the per-partition counts. -/
def column (partial_counts : List (List Int)) (j : Nat) : List Int :=
  partial_counts.map fun row => row.getD j 0

/-- Modelled from the spec: the kernel `kernel::block_prefix_sum` (source missing): within each
bucket column an exclusive prefix sum across the `num_blocks` partitions (the write offsets),
and the total of the column. -/
def block_prefix_sum (searchtree_width : Nat) (partial_counts : List (List Int))
    (num_blocks : Int) : List (List Int) × List Int :=
  ((List.range num_blocks.toNat).map fun b =>
      (List.range searchtree_width).map fun j => ((column partial_counts j).take b).sum,
   (List.range searchtree_width).map fun j =>
      ((column partial_counts j).take num_blocks.toNat).sum)

/-- Modelled from the spec: the kernel `start_prefix_sum` of `hip/components/prefix_sum.hip.hpp`
(source missing): the exclusive prefix sum of the `searchtree_width` bucket totals, followed by
the grand total in the last of the `searchtree_width + 1` entries. -/
def start_prefix_sum (searchtree_width : Nat) (totals : List Int) : List Int :=
  (List.range (searchtree_width + 1)).map fun j => (totals.take j).sum

/-- The writes of one block of `kernel::filter_bucket`: the keys of the entries whose oracle is
`bucket`, at the block offset plus the running position within the partition. -/
def block_writes (items : List Int) (oracles : List Nat) (bucket ofs : Int) :
    List (Int × Int) :=
  ((items.zip oracles).filter fun p => decide ((p.2 : Int) = bucket)).enum.map fun kp =>
    (ofs + (kp.1 : Int), key kp.2.1)

/-- Store one value in the output buffer; `none` is an out-of-bounds access. -/
def store (out : Option (List Int)) (w : Int × Int) : Option (List Int) :=
  match out with
  | some o => if 0 ≤ w.1 ∧ w.1.toNat < o.length then some (o.set w.1.toNat w.2) else none
  | none => none

/-- The write offset of block `b` for `bucket` in the prefix-summed per-partition counts. -/
def block_offset (partial_counts : List (List Int)) (b : Nat) (bucket : Int) : Option Int :=
  match partial_counts.get? b with
  | some row => readAt row bucket
  | none => none

/-- One block of `kernel::filter_bucket`. -/
def filter_block (values : List Int) (size bucket : Int) (oracles : List Nat)
    (partial_counts : List (List Int)) (out : Option (List Int)) (b : Nat) :
    Option (List Int) :=
  match block_offset partial_counts b bucket with
  | some ofs =>
    (block_writes (block_items values size b) (block_items oracles size b) bucket ofs).foldl
      store out
  | none => none

/-- Modelled from the spec: the kernel `kernel::filter_bucket` (source missing), launched with
`num_blocks` blocks: stream compaction of the entries whose oracle is `bucket` into `out`,
the prefix-summed counts of the bucket being the write offsets of the partitions. -/
def filter_bucket (values : List Int) (size bucket : Int) (oracles : List Nat)
    (partial_counts : List (List Int)) (out : List Int) (num_blocks : Int) :
    Option (List Int) :=
  if values.length < size.toNat ∨ oracles.length < size.toNat then none
  else
    (List.range num_blocks.toNat).foldl (filter_block values size bucket oracles partial_counts)
      (some out)

/-- Modelled from the spec: the kernel `kernel::basecase_select` (source missing): exact
selection of the entry of the given rank among the first `size` entries of a buffer that fits
one work-group (at most `basecase_size` entries). -/
def basecase_select (basecase_size : Nat) (input : List Int) (size rank : Int) : Option Int :=
  if input.length < size.toNat ∨ (basecase_size : Int) < size then none
  else readAt (sortKeys (input.take size.toNat)) rank

/-- The call `std::nth_element(begin, begin + rank, begin + bucket_size)` followed by the read
of `*middle`: the entry that a sort of the range would place at `rank`. -/
def nth_element (a : List Int) (bucket_size rank : Int) : Option Int :=
  if a.length < bucket_size.toNat then none
  else readAt (sortKeys (a.take bucket_size.toNat)) rank

/-- Modelled from the spec: the helper `kernel::fast_abs_result` (source missing); for a real
value type the key is already the magnitude to return. -/
def fast_abs_result (v : Int) : Int := v

/-! ## Host functions -/

/-- The outputs of `ssss_count`: the search tree, the oracles, the prefix-summed per-partition
counts and the cumulative bucket boundaries. -/
structure Counts where
  tree : List Int
  oracles : List Nat
  partial_counts : List (List Int)
  total_counts : List Int
deriving Repr, DecidableEq

/-- The function `ssss_count`: sample and build the search tree, count the buckets per block,
prefix sum over the blocks, prefix sum over the buckets. -/
def ssss_count (searchtree_width : Nat) (values : List Int) (size : Int) : Option Counts :=
  let bucket_count := searchtree_width
  let num_threads_total := ceildiv size items_per_thread
  let num_blocks := ceildiv num_threads_total default_block_size
  match build_searchtree bucket_count values size with
  | none => none
  | some tree =>
    match count_buckets bucket_count values size tree num_blocks with
    | none => none
    | some (counter, oracles) =>
      let (partial_counts, totals) := block_prefix_sum bucket_count counter num_blocks
      some ⟨tree, oracles, partial_counts, start_prefix_sum bucket_count totals⟩

/-- The function `ssss_filter`: launch `kernel::filter_bucket` on the grid of `ssss_count`. -/
def ssss_filter (values : List Int) (size : Int) (oracles : List Nat)
    (partial_counts : List (List Int)) (bucket : Int) (out : List Int) : Option (List Int) :=
  let num_threads_total := ceildiv size items_per_thread
  let num_blocks := ceildiv num_threads_total default_block_size
  filter_bucket values size bucket oracles partial_counts out num_blocks

/-- The host-side steps of `threshold_select`, in the order they are made: the calls of
`ssss_count` and `ssss_filter` with their size (and bucket) arguments, the rank location with
the chosen bucket, its size and the re-based rank, and the final selection with the
`bucket_size` and `rank` it is given. -/
inductive Event
  | ssss_count (size : Int)
  | locate (bucket bucket_size rank : Int)
  | ssss_filter (size bucket : Int)
  | nth_element (bucket_size rank : Int)
  | basecase_select (bucket_size rank : Int)
deriving Repr, DecidableEq

/-- How a call ends: with a value, in undefined behaviour (an out-of-bounds access), or, for the
bounded unrolling of the loop, without an answer. -/
inductive Outcome
  | value (v : Int)
  | undefined
  | out_of_fuel
deriving Repr, DecidableEq

/-- A run: the steps made and the outcome. -/
structure Run where
  trace : List Event
  outcome : Outcome
deriving Repr, DecidableEq

/-- Prefix a run with the steps made before it. -/
def Run.after (evs : List Event) (r : Run) : Run := ⟨evs ++ r.trace, r.outcome⟩

/-- Turn the result of a selection routine into an outcome. -/
def Outcome.ofOption : Option Int → Outcome
  | some v => Outcome.value (fast_abs_result v)
  | none => Outcome.undefined

/-- Rank location: `std::upper_bound` over the `bucket_count + 1` boundaries and the distance
of the result from `splitter_ranks + 1`. -/
def locate_bucket (bucket_count : Nat) (splitter_ranks : List Int) (rank : Int) : Int :=
  let it := upper_bound splitter_ranks (bucket_count + 1) rank
  (it : Int) - 1

/-- The `while` loop of `threshold_select` and the base case after it.  The first argument
bounds the number of rounds of the unrolling; `step` is the counter of the source. -/
def select_loop (bucket_count basecase_size : Nat) :
    Nat → Int → List Int → List Int → Int → Int → Run
  | 0, _, _, _, _, _ => ⟨[], Outcome.out_of_fuel⟩
  | fuel + 1, step, tmp_out_array, tmp_in_array, bucket_size, rank =>
    if bucket_size > basecase_size then
      let tmp_in := tmp_out_array
      let tmp_out := tmp_in_array
      Run.after [Event.ssss_count bucket_size] <|
      match ssss_count bucket_count tmp_in bucket_size with
      | none => ⟨[], Outcome.undefined⟩
      | some c =>
        let splitter_ranks := c.total_counts
        let bucket := locate_bucket bucket_count splitter_ranks rank
        Run.after [Event.ssss_filter bucket_size bucket] <|
        match ssss_filter tmp_in bucket_size c.oracles c.partial_counts bucket tmp_out with
        | none => ⟨[], Outcome.undefined⟩
        | some tmp_out =>
          match readAt splitter_ranks bucket, readAt splitter_ranks (bucket + 1) with
          | some lo, some hi =>
            let rank := rank - lo
            let bucket_size := hi - lo
            let step := step + 1
            Run.after [Event.locate bucket bucket_size rank] <|
            if step > 5 then
              ⟨[Event.nth_element bucket_size rank],
                Outcome.ofOption (nth_element tmp_out bucket_size rank)⟩
            else select_loop bucket_count basecase_size fuel step tmp_out tmp_in bucket_size rank
          | _, _ => ⟨[], Outcome.undefined⟩
    else
      ⟨[Event.basecase_select bucket_size rank],
        Outcome.ofOption (basecase_select basecase_size tmp_out_array bucket_size rank)⟩

/-- The function `threshold_select`; `searchtree_width` and `basecase_size` stand for the
constants `kernel::searchtree_width` and `kernel::basecase_size`.  The scratch buffers are
taken as zero-filled. -/
def threshold_select (searchtree_width basecase_size : Nat) (values : List Int)
    (size rank : Int) : Run :=
  let bucket_count := searchtree_width
  Run.after [Event.ssss_count size] <|
  match ssss_count bucket_count values size with
  | none => ⟨[], Outcome.undefined⟩
  | some c =>
    let splitter_ranks := c.total_counts
    let bucket := locate_bucket bucket_count splitter_ranks rank
    match readAt splitter_ranks (bucket + 1), readAt splitter_ranks bucket with
    | some hi, some lo =>
      let bucket_size := hi - lo
      let rank := rank - lo
      let tmp_out_array := List.replicate bucket_size.toNat 0
      let tmp_in_array := List.replicate bucket_size.toNat 0
      Run.after [Event.locate bucket bucket_size rank, Event.ssss_filter size bucket] <|
      match ssss_filter values size c.oracles c.partial_counts bucket tmp_out_array with
      | none => ⟨[], Outcome.undefined⟩
      | some tmp_out =>
        select_loop bucket_count basecase_size 6 0 tmp_out tmp_in_array bucket_size rank
    | _, _ => ⟨[], Outcome.undefined⟩

/-! ## Specification vocabulary -/

/-- A list of integers is non-decreasing up to position `n`. -/
def NonDecreasing (a : List Int) (n : Nat) : Prop :=
  ∀ i j, i ≤ j → j < n → a.getD i 0 ≤ a.getD j 0

/-- Number of thread blocks `ssss_count` and `ssss_filter` launch for a working array. -/
def num_blocks (size : Int) : Nat :=
  (ceildiv (ceildiv size items_per_thread) default_block_size).toNat

/-- The oracles of a working array for a given tree. -/
def oraclesOf (tree : List Int) (values : List Int) (size : Int) : List Nat :=
  (values.take size.toNat).map fun v => classify tree (key v)

/-- The keys of the entries of a working array that fall into `bucket`. -/
def compacted (tree : List Int) (bucket : Int) (l : List Int) : List Int :=
  (l.filter fun v => decide (((classify tree (key v) : Nat) : Int) = bucket)).map key

/-- The cumulative boundaries of a list of oracles. -/
def boundaries (K : Nat) (oracles : List Nat) : List Int :=
  (List.range (K + 1)).map fun j => ((oracles.countP (fun x => decide (x < j)) : Nat) : Int)

/-- The shape of the steps of the loop of `threshold_select` entered with counter `step`,
working-set size `bucket_size` and rank `rank`: either the base case on a small working set,
or a pass (count, filter, rank location into a non-empty bucket with a valid re-based rank)
followed by the fallback when the counter exceeds `5` and by the rest of the loop otherwise. -/
inductive LoopTrace (K basecase_size : Nat) : Int → Int → Int → List Event → Prop
  | base (step bucket_size rank : Int) (h : ¬ bucket_size > basecase_size) :
      LoopTrace K basecase_size step bucket_size rank [Event.basecase_select bucket_size rank]
  | fallback (step bucket_size rank bucket bucket_size' rank' : Int)
      (h : bucket_size > basecase_size) (hstep : step + 1 > 5)
      (hb0 : 0 ≤ bucket) (hbK : bucket < K) (hsz : 1 ≤ bucket_size')
      (hle : bucket_size' ≤ bucket_size) (hr0 : 0 ≤ rank') (hr : rank' < bucket_size') :
      LoopTrace K basecase_size step bucket_size rank
        [Event.ssss_count bucket_size, Event.ssss_filter bucket_size bucket,
          Event.locate bucket bucket_size' rank', Event.nth_element bucket_size' rank']
  | iter (step bucket_size rank bucket bucket_size' rank' : Int) (tr : List Event)
      (h : bucket_size > basecase_size) (hstep : ¬ step + 1 > 5)
      (hb0 : 0 ≤ bucket) (hbK : bucket < K) (hsz : 1 ≤ bucket_size')
      (hle : bucket_size' ≤ bucket_size) (hr0 : 0 ≤ rank') (hr : rank' < bucket_size')
      (hrest : LoopTrace K basecase_size (step + 1) bucket_size' rank' tr) :
      LoopTrace K basecase_size step bucket_size rank
        (Event.ssss_count bucket_size :: Event.ssss_filter bucket_size bucket ::
          Event.locate bucket bucket_size' rank' :: tr)

/-- An event is a call of `ssss_count`. -/
def Event.isCount : Event → Bool
  | Event.ssss_count _ => true
  | _ => false

/-- The steps of one loop pass that keeps a working set of `n` entries in bucket `b`. -/
def stuck_pass (n b r : Int) : List Event :=
  [Event.ssss_count n, Event.ssss_filter n b, Event.locate b n r]

/-! ## Passes of a run, writes of the compaction, unimplemented collaborators -/

/-- An event is a call of `ssss_filter`. -/
def Event.isFilter : Event → Bool
  | Event.ssss_filter _ _ => true
  | _ => false

/-- An event is a final selection: the base-case selector or the `std::nth_element` fallback. -/
def Event.isFinal : Event → Bool
  | Event.nth_element _ _ => true
  | Event.basecase_select _ _ => true
  | _ => false

/-- Number of executions of the body of the `while` loop in a run: the calls of `ssss_count`
after the one of the first pass. -/
def Run.loop_passes (r : Run) : Nat := r.trace.countP Event.isCount - 1

/-- The writes `(position, key)` that the first `n` blocks of `kernel::filter_bucket` make, in
block order; `none` when the offset of a block is read out of bounds. -/
def filter_writes (values : List Int) (size bucket : Int) (oracles : List Nat)
    (partial_counts : List (List Int)) : Nat → Option (List (Int × Int))
  | 0 => some []
  | n + 1 =>
    match filter_writes values size bucket oracles partial_counts n,
      block_offset partial_counts n bucket with
    | some ws, some ofs =>
      some (ws ++ block_writes (block_items values size n) (block_items oracles size n) bucket ofs)
    | _, _ => none

/-- The entries of a working array paired with their oracles that fall into `bucket`. -/
def matching (tree : List Int) (bucket : Int) (l : List Int) : List (Int × Nat) :=
  (l.zip (l.map fun v => classify tree (key v))).filter fun p => decide ((p.2 : Int) = bucket)

/-- The exceptions the kernels raise. -/
inductive Exception
  | NotImplemented
deriving Repr, DecidableEq

/-- A matrix in compressed-row storage (`matrix::Csr`). -/
structure CsrMatrix where
  num_rows : Nat
  num_cols : Nat
  row_ptrs : List Int
  col_idxs : List Int
  values : List Int
deriving Repr, DecidableEq

/-- The three output arrays of `threshold_filter` and of `spgeam`: row pointers, column indices
and values. -/
structure OutputArrays where
  row_ptrs : List Int
  col_idxs : List Int
  vals : List Int
deriving Repr, DecidableEq

/-- Modelled from the spec: the macro `GKO_NOT_IMPLEMENTED` of
`ginkgo/core/base/exception_helpers.hpp` (source missing), the whole body of a function that is
not implemented: it raises the not-implemented error at once, before anything is written. -/
def GKO_NOT_IMPLEMENTED {σ : Type} (state : σ) : Except Exception Unit × σ :=
  (Except.error Exception.NotImplemented, state)

/-- The function `threshold_filter` of the HIP backend; the result is paired with the output
arrays as the call leaves them. -/
def threshold_filter (_a : CsrMatrix) (_threshold : Int) (out : OutputArrays) :
    Except Exception Unit × OutputArrays :=
  GKO_NOT_IMPLEMENTED out

/-- The function `spgeam` of the HIP backend; the result is paired with the output arrays as
the call leaves them. -/
def spgeam (_alpha : List (List Int)) (_a : CsrMatrix) (_beta : List (List Int))
    (_b : CsrMatrix) (out : OutputArrays) : Except Exception Unit × OutputArrays :=
  GKO_NOT_IMPLEMENTED out

/-- The size argument of a step: the working-set size of a pass, or the size of the bucket that
a rank location or a final selection is given. -/
def Event.size : Event → Int
  | Event.ssss_count n => n
  | Event.locate _ bucket_size _ => bucket_size
  | Event.ssss_filter n _ => n
  | Event.nth_element bucket_size _ => bucket_size
  | Event.basecase_select bucket_size _ => bucket_size

/-- The number `max_num_blocks` of `threshold_select`, for which `partial_counts_array` is
allocated with `bucket_count * max_num_blocks` entries. -/
def max_num_blocks (size : Int) : Int :=
  let max_num_threads := ceildiv size items_per_thread
  ceildiv max_num_threads default_block_size

/-! ## Binary search -/

/-- The loop of `std::upper_bound` returns a partition point of the searched range. -/
theorem upper_bound_loop_spec (a : List Int) (val : Int) :
    ∀ (fuel first len : Nat), len ≤ fuel →
      (∀ i j, first ≤ i → i ≤ j → j < first + len → val < a.getD i 0 → val < a.getD j 0) →
      first ≤ upper_bound_loop fuel a first len val ∧
      upper_bound_loop fuel a first len val ≤ first + len ∧
      (∀ i, first ≤ i → i < upper_bound_loop fuel a first len val → a.getD i 0 ≤ val) ∧
      (∀ i, upper_bound_loop fuel a first len val ≤ i → i < first + len → val < a.getD i 0) := by
  intro fuel
  induction fuel with
  | zero =>
    intro first len hlen _
    have : len = 0 := by omega
    subst this
    simp only [upper_bound_loop]
    refine ⟨le_refl _, by omega, ?_, ?_⟩
    · intro i h1 h2; omega
    · intro i h1 h2; omega
  | succ fuel ih =>
    intro first len hlen hmono
    unfold upper_bound_loop
    by_cases h0 : len = 0
    · subst h0
      simp only [if_true]
      refine ⟨le_refl _, by omega, ?_, ?_⟩
      · intro i h1 h2; omega
      · intro i h1 h2; omega
    · simp only [h0, if_false]
      by_cases hlt : val < a.getD (first + len / 2) 0
      · simp only [hlt, if_true]
        have hh : len / 2 < len := Nat.div_lt_self (by omega) (by omega)
        obtain ⟨h1, h2, h3, h4⟩ := ih first (len / 2) (by omega)
          (fun i j hi hij hj => hmono i j hi hij (by omega))
        refine ⟨h1, by omega, h3, ?_⟩
        intro i hi hi2
        by_cases hc : i < first + len / 2
        · exact h4 i hi hc
        · exact hmono (first + len / 2) i (by omega) (by omega) hi2 hlt
      · simp only [hlt, if_false]
        have hh : len / 2 < len := Nat.div_lt_self (by omega) (by omega)
        obtain ⟨h1, h2, h3, h4⟩ := ih (first + len / 2 + 1) (len - len / 2 - 1) (by omega)
          (fun i j hi hij hj => hmono i j (by omega) hij (by omega))
        refine ⟨by omega, by omega, ?_, ?_⟩
        · intro i hi hi2
          by_cases hc : first + len / 2 + 1 ≤ i
          · exact h3 i hc hi2
          · by_contra hcon
            exact hlt (hmono i (first + len / 2) hi (by omega) (by omega) (not_le.mp hcon))
        · intro i hi hi2
          exact h4 i hi (by omega)

/-- Specification of `std::upper_bound` on a non-decreasing range: everything before the
result is `≤ val`, everything from the result on is `> val`. -/
theorem upper_bound_spec (a : List Int) (n : Nat) (val : Int) (h : NonDecreasing a n) :
    upper_bound a n val ≤ n ∧
    (∀ i, i < upper_bound a n val → a.getD i 0 ≤ val) ∧
    (∀ i, upper_bound a n val ≤ i → i < n → val < a.getD i 0) := by
  obtain ⟨_, h2, h3, h4⟩ := upper_bound_loop_spec a val n 0 n (le_refl _)
    (fun i j _ hij hj hv => lt_of_lt_of_le hv (h i j hij (by omega)))
  refine ⟨by simpa [upper_bound] using h2, ?_, ?_⟩
  · intro i hi; exact h3 i (Nat.zero_le _) hi
  · intro i hi hi2; exact h4 i hi (by omega)

/-! ## Order statistics and buckets -/

theorem sortKeys_perm (l : List Int) : (sortKeys l).Perm l :=
  List.perm_insertionSort _ l

theorem sortKeys_sorted (l : List Int) : (sortKeys l).Sorted (· ≤ ·) :=
  List.sorted_insertionSort _ l

theorem sortKeys_length (l : List Int) : (sortKeys l).length = l.length :=
  (sortKeys_perm l).length_eq

theorem mem_sortKeys {l : List Int} {x : Int} : x ∈ sortKeys l ↔ x ∈ l :=
  (sortKeys_perm l).mem_iff

theorem sortKeys_eq_of_perm {l₁ l₂ : List Int} (h : l₁.Perm l₂) : sortKeys l₁ = sortKeys l₂ :=
  List.eq_of_perm_of_sorted (((sortKeys_perm l₁).trans h).trans (sortKeys_perm l₂).symm)
    (sortKeys_sorted l₁) (sortKeys_sorted l₂)

/-- Splitting a list by the bucket of its keys is a permutation. -/
theorem bucket_split_perm (cls : Int → Nat) (t : Nat) (l : List Int) :
    (l.filter (fun x => decide (cls x < t)) ++ l.filter (fun x => decide (cls x = t)) ++
      l.filter (fun x => decide (t < cls x))).Perm l := by
  induction l with
  | nil => simp
  | cons x l ih =>
    rcases Nat.lt_trichotomy (cls x) t with h | h | h
    · have e1 : decide (cls x < t) = true := decide_eq_true h
      have e2 : decide (cls x = t) = false := decide_eq_false (by omega)
      have e3 : decide (t < cls x) = false := decide_eq_false (by omega)
      simp only [List.filter_cons, e1, e2, e3, if_true, Bool.false_eq_true, if_false]
      simpa using ih
    · have e1 : decide (cls x < t) = false := decide_eq_false (by omega)
      have e2 : decide (cls x = t) = true := decide_eq_true h
      have e3 : decide (t < cls x) = false := decide_eq_false (by omega)
      simp only [List.filter_cons, e1, e2, e3, if_true, Bool.false_eq_true, if_false]
      refine List.Perm.trans ?_ (List.Perm.cons x ih)
      simp only [List.append_assoc]
      exact List.perm_middle
    · have e1 : decide (cls x < t) = false := decide_eq_false (by omega)
      have e2 : decide (cls x = t) = false := decide_eq_false (by omega)
      have e3 : decide (t < cls x) = true := decide_eq_true h
      simp only [List.filter_cons, e1, e2, e3, if_true, Bool.false_eq_true, if_false]
      refine List.Perm.trans ?_ (List.Perm.cons x ih)
      exact List.perm_middle

/-- With a monotone bucket function, the sorted keys are the sorted buckets in order. -/
theorem sortKeys_bucket_split (cls : Int → Nat) (hmono : ∀ x y, x ≤ y → cls x ≤ cls y)
    (t : Nat) (l : List Int) :
    sortKeys l =
      sortKeys (l.filter (fun x => decide (cls x < t))) ++
        sortKeys (l.filter (fun x => decide (cls x = t))) ++
        sortKeys (l.filter (fun x => decide (t < cls x))) := by
  have key : ∀ a b : Int, cls a < cls b → a ≤ b := by
    intro a b hab
    by_contra hcon
    have := hmono b a (le_of_lt (not_le.mp hcon))
    omega
  apply List.eq_of_perm_of_sorted _ (sortKeys_sorted l)
  · unfold List.Sorted
    rw [List.pairwise_append, List.pairwise_append]
    refine ⟨⟨sortKeys_sorted _, sortKeys_sorted _, ?_⟩, sortKeys_sorted _, ?_⟩
    · intro a ha b hb
      rw [mem_sortKeys, List.mem_filter] at ha hb
      have h1 := of_decide_eq_true ha.2
      have h2 := of_decide_eq_true hb.2
      exact key a b (by omega)
    · intro a ha b hb
      rw [mem_sortKeys, List.mem_filter] at hb
      have h2 := of_decide_eq_true hb.2
      rw [List.mem_append, mem_sortKeys, mem_sortKeys, List.mem_filter, List.mem_filter] at ha
      rcases ha with ha | ha
      · have h1 := of_decide_eq_true ha.2
        exact key a b (by omega)
      · have h1 := of_decide_eq_true ha.2
        exact key a b (by omega)
  · refine (sortKeys_perm l).trans ((bucket_split_perm cls t l).symm.trans ?_)
    exact ((sortKeys_perm _).symm.append (sortKeys_perm _).symm).append (sortKeys_perm _).symm

theorem countP_lt_succ (cls : Int → Nat) (t : Nat) (l : List Int) :
    l.countP (fun x => decide (cls x < t + 1)) =
      l.countP (fun x => decide (cls x < t)) + l.countP (fun x => decide (cls x = t)) := by
  induction l with
  | nil => simp
  | cons x l ih =>
    simp only [List.countP_cons, ih]
    rcases Nat.lt_trichotomy (cls x) t with h | h | h
    · have h1 : cls x < t + 1 := by omega
      have h2 : ¬ cls x = t := by omega
      simp [h, h1, h2]; omega
    · have h1 : cls x < t + 1 := by omega
      have h2 : ¬ cls x < t := by omega
      simp [h, h1, h2]; omega
    · have h1 : ¬ cls x < t + 1 := by omega
      have h2 : ¬ cls x = t := by omega
      have h3 : ¬ cls x < t := by omega
      simp [h1, h2, h3]

/-- One refinement step preserves the order statistic: the entry of rank `r` of the keys is the
entry of rank `r - B t` of bucket `t`, when `B t ≤ r < B (t + 1)` for the boundaries
`B j = #{x | bucket x < j}`. -/
theorem select_refine (cls : Int → Nat) (hmono : ∀ x y, x ≤ y → cls x ≤ cls y)
    (t : Nat) (l : List Int) (r : Nat)
    (h1 : l.countP (fun x => decide (cls x < t)) ≤ r)
    (h2 : r < l.countP (fun x => decide (cls x < t + 1))) :
    (sortKeys (l.filter (fun x => decide (cls x = t)))).get?
        (r - l.countP (fun x => decide (cls x < t))) = (sortKeys l).get? r := by
  rw [sortKeys_bucket_split cls hmono t l]
  rw [countP_lt_succ] at h2
  have e1 : (sortKeys (l.filter (fun x => decide (cls x < t)))).length =
      l.countP (fun x => decide (cls x < t)) := by
    rw [sortKeys_length, List.countP_eq_length_filter]
  have e2 : (sortKeys (l.filter (fun x => decide (cls x = t)))).length =
      l.countP (fun x => decide (cls x = t)) := by
    rw [sortKeys_length, List.countP_eq_length_filter]
  simp only [List.get?_eq_getElem?]
  rw [List.append_assoc, List.getElem?_append_right (by omega), e1,
    List.getElem?_append_left (by omega)]

/-! ## Grid size and partitions -/

theorem ceildiv_nonneg_eq (num den : Int) (h : 0 ≤ num) (hd : 0 < den) :
    ceildiv num den = (num + den - 1) / den := by
  unfold ceildiv
  rw [Int.tdiv_eq_ediv (by omega) (by omega)]

theorem partition_size_eq : partition_size = 1024 := by decide

/-- The grid of `ssss_count` and `ssss_filter` covers the working array. -/
theorem num_blocks_cover (size : Int) (h : 0 ≤ size) :
    size.toNat ≤
      (ceildiv (ceildiv size items_per_thread) default_block_size).toNat * partition_size := by
  rw [partition_size_eq]
  have e1 : ceildiv size items_per_thread = (size + 1) / 2 := by
    rw [ceildiv_nonneg_eq _ _ h (by decide)]
    have : size + 2 - 1 = size + 1 := by omega
    simp [items_per_thread, this]
  have h2 : 0 ≤ (size + 1) / 2 := by omega
  rw [e1, ceildiv_nonneg_eq _ _ h2 (by decide)]
  simp only [default_block_size]
  omega

theorem blocks_flatten {α : Type} (l : List α) (size : Int) (b : Nat) :
    ((List.range b).map (block_items l size)).flatten =
      (l.take size.toNat).take (b * partition_size) := by
  induction b with
  | zero => simp
  | succ b ih =>
    rw [List.range_succ, List.map_append, List.flatten_append, ih]
    simp only [List.map_cons, List.map_nil, List.flatten_cons, List.flatten_nil, List.append_nil,
      block_items]
    rw [Nat.succ_mul, List.take_add]

theorem block_items_map {α β : Type} (f : α → β) (l : List α) (size : Int) (b : Nat) :
    (block_items l size b).map f = block_items (l.map f) size b := by
  simp [block_items, List.map_take, List.map_drop]

theorem readAll_eq_some (values : List Int) (idxs : List Nat)
    (h : ∀ i ∈ idxs, i < values.length) :
    readAll values idxs = some (idxs.map fun i => values.getD i 0) := by
  induction idxs with
  | nil => rfl
  | cons i is ih =>
    have hi : i < values.length := h i (List.mem_cons_self _ _)
    have ih2 := ih (fun j hj => h j (List.mem_cons_of_mem _ hj))
    simp only [readAll, ih2, List.map_cons]
    rw [List.get?_eq_getElem?, List.getElem?_eq_getElem hi]
    simp [List.getD_eq_getElem?_getD, List.getElem?_eq_getElem hi]

theorem sample_index_lt (K : Nat) (size : Int) (i : Nat) (hi : i < K) (hs : 1 ≤ size) :
    sample_index K size i < size.toNat := by
  unfold sample_index
  have hn : 0 < size.toNat := by omega
  apply Nat.div_lt_of_lt_mul
  exact Nat.mul_lt_mul_of_pos_right hi hn

/-- On a valid working array the search tree exists, is sorted, has `searchtree_width - 1`
splitters and every splitter is a key of the working array. -/
theorem build_searchtree_spec (K : Nat) (values : List Int) (size : Int)
    (hs : 1 ≤ size) (hlen : size.toNat ≤ values.length) :
    ∃ tree, build_searchtree K values size = some tree ∧ tree.Sorted (· ≤ ·) ∧
      tree.length = K - 1 ∧ ∀ s ∈ tree, s ∈ (values.take size.toNat).map key := by
  have hall : ∀ i ∈ (List.range K).map (sample_index K size), i < values.length := by
    intro i hi
    rw [List.mem_map] at hi
    obtain ⟨j, hj, rfl⟩ := hi
    have := sample_index_lt K size j (List.mem_range.mp hj) hs
    omega
  unfold build_searchtree
  rw [readAll_eq_some _ _ hall]
  refine ⟨_, rfl, ?_, ?_, ?_⟩
  · exact (List.sorted_insertionSort _ _).tail
  · simp [sortKeys, List.length_insertionSort]
  · intro s hs'
    have hs2 : s ∈ sortKeys _ := List.mem_of_mem_tail hs'
    rw [mem_sortKeys] at hs2
    simp only [List.map_map, List.mem_map, List.mem_range, Function.comp] at hs2 ⊢
    obtain ⟨j, hj, rfl⟩ := hs2
    have hlt := sample_index_lt K size j hj hs
    refine ⟨values.getD (sample_index K size j) 0, ?_, rfl⟩
    rw [List.getD_eq_getElem?_getD, List.getElem?_eq_getElem (by omega)]
    simp only [Option.getD_some]
    rw [List.mem_take_iff_getElem]
    exact ⟨sample_index K size j, by simp; omega, rfl⟩

/-! ## Classification -/

theorem nonDecreasing_of_sorted (a : List Int) (h : a.Sorted (· ≤ ·)) :
    NonDecreasing a a.length := by
  intro i j hij hj
  rw [List.getD_eq_getElem?_getD, List.getD_eq_getElem?_getD,
    List.getElem?_eq_getElem (by omega), List.getElem?_eq_getElem hj]
  simp only [Option.getD_some]
  rcases Nat.eq_or_lt_of_le hij with h1 | h1
  · subst h1; exact le_refl _
  · exact List.pairwise_iff_getElem.mp h i j (by omega) hj h1

theorem classify_le (tree : List Int) (h : tree.Sorted (· ≤ ·)) (k : Int) :
    classify tree k ≤ tree.length :=
  (upper_bound_spec tree tree.length k (nonDecreasing_of_sorted tree h)).1

/-- Bucket order follows key order. -/
theorem classify_mono (tree : List Int) (h : tree.Sorted (· ≤ ·)) (x y : Int) (hxy : x ≤ y) :
    classify tree x ≤ classify tree y := by
  obtain ⟨hx1, hx2, hx3⟩ := upper_bound_spec tree tree.length x (nonDecreasing_of_sorted tree h)
  obtain ⟨hy1, hy2, hy3⟩ := upper_bound_spec tree tree.length y (nonDecreasing_of_sorted tree h)
  by_contra hcon
  have hlt : classify tree y < classify tree x := not_le.mp hcon
  have a1 := hx2 (classify tree y) hlt
  have a2 := hy3 (classify tree y) (le_refl _) (lt_of_lt_of_le hlt hx1)
  omega

/-- A key that is at least every splitter lands in the last bucket. -/
theorem classify_last (tree : List Int) (h : tree.Sorted (· ≤ ·)) (k : Int)
    (hk : ∀ s ∈ tree, s ≤ k) : classify tree k = tree.length := by
  obtain ⟨h1, _, h3⟩ := upper_bound_spec tree tree.length k (nonDecreasing_of_sorted tree h)
  by_contra hcon
  have hlt : classify tree k < tree.length := lt_of_le_of_ne h1 hcon
  have a := h3 (classify tree k) (le_refl _) hlt
  have hm : tree.getD (classify tree k) 0 ∈ tree := by
    rw [List.getD_eq_getElem?_getD, List.getElem?_eq_getElem hlt]
    exact List.getElem_mem _
  have := hk _ hm
  omega

/-! ## Counting -/

theorem sum_count_blocks {α : Type} [DecidableEq α] (f : Nat → List α) (j : α) (b : Nat) :
    ((List.range b).map fun b' => (((f b').count j : Nat) : Int)).sum =
      ((((List.range b).map f).flatten.count j : Nat) : Int) := by
  induction b with
  | zero => simp
  | succ b ih =>
    rw [List.range_succ, List.map_append, List.sum_append, ih, List.map_append,
      List.flatten_append, List.count_append]
    simp

theorem countP_lt_succ_nat (t : Nat) (l : List Nat) :
    l.countP (fun x => decide (x < t + 1)) =
      l.countP (fun x => decide (x < t)) + l.count t := by
  induction l with
  | nil => simp
  | cons x l ih =>
    simp only [List.countP_cons, List.count_cons, ih]
    rcases Nat.lt_trichotomy x t with h | h | h
    · have h1 : x < t + 1 := by omega
      have h2 : ¬ x = t := by omega
      simp [h, h1, h2]; omega
    · have h1 : x < t + 1 := by omega
      have h2 : ¬ x < t := by omega
      simp [h, h1, h2]; omega
    · have h1 : ¬ x < t + 1 := by omega
      have h2 : ¬ x = t := by omega
      have h3 : ¬ x < t := by omega
      simp [h1, h2, h3]

theorem sum_count_lt (l : List Nat) (j : Nat) :
    ((List.range j).map fun j' => ((l.count j' : Nat) : Int)).sum =
      ((l.countP (fun x => decide (x < j)) : Nat) : Int) := by
  induction j with
  | zero => simp
  | succ j ih =>
    rw [List.range_succ, List.map_append, List.sum_append, ih, countP_lt_succ_nat]
    simp

theorem column_counter (K : Nat) (g : Nat → Nat → Int) (nb j : Nat) (hj : j < K) :
    column ((List.range nb).map fun b => (List.range K).map fun j => g b j) j =
      (List.range nb).map fun b => g b j := by
  unfold column
  rw [List.map_map]
  apply List.map_congr_left
  intro b _
  simp only [Function.comp]
  rw [List.getD_eq_getElem?_getD, List.getElem?_map, List.getElem?_range hj]
  rfl

theorem take_map_range {β : Type} (f : Nat → β) (n m : Nat) (h : m ≤ n) :
    ((List.range n).map f).take m = (List.range m).map f := by
  rw [← List.map_take, List.take_range, Nat.min_eq_left h]

/-- What `ssss_count` computes on a valid working array: a sorted tree drawn from the keys,
the bucket of every key, the per-partition offsets and the cumulative boundaries. -/
theorem ssss_count_spec (K : Nat) (values : List Int) (size : Int)
    (hK : 0 < K) (hK2 : K ≤ 256) (hs : 1 ≤ size) (hlen : size.toNat ≤ values.length) :
    ∃ tree, tree.Sorted (· ≤ ·) ∧ tree.length = K - 1 ∧
      (∀ s ∈ tree, s ∈ (values.take size.toNat).map key) ∧
      ssss_count K values size = some
        ⟨tree, oraclesOf tree values size,
          (List.range (num_blocks size)).map fun b => (List.range K).map fun j =>
            ((((oraclesOf tree values size).take (b * partition_size)).count j : Nat) : Int),
          (List.range (K + 1)).map fun j =>
            (((oraclesOf tree values size).countP (fun x => decide (x < j)) : Nat) : Int)⟩ := by
  obtain ⟨tree, hb, hsorted, htl, hmem⟩ := build_searchtree_spec K values size hs hlen
  refine ⟨tree, hsorted, htl, hmem, ?_⟩
  have hcls : (fun v : Int => classify tree (key v) % 256) = fun v => classify tree (key v) := by
    funext v
    have := classify_le tree hsorted (key v)
    exact Nat.mod_eq_of_lt (by omega)
  have hblk : ∀ b, (block_items values size b).map (fun v => classify tree (key v)) =
      block_items (oraclesOf tree values size) size b := by
    intro b
    rw [block_items_map]
    simp [block_items, oraclesOf, List.map_take, List.take_take]
  have hflat : ∀ b, ((List.range b).map fun b' =>
      block_items (oraclesOf tree values size) size b').flatten =
      (oraclesOf tree values size).take (b * partition_size) := by
    intro b
    rw [blocks_flatten]
    simp [oraclesOf, List.take_take, ← List.map_take]
  have hcover := num_blocks_cover size (by omega)
  have hall : (oraclesOf tree values size).take (num_blocks size * partition_size) =
      oraclesOf tree values size := by
    apply List.take_of_length_le
    simp only [oraclesOf, List.length_map, List.length_take, num_blocks]
    omega
  simp only [ssss_count, hb, count_buckets, if_neg (not_lt.mpr hlen), block_prefix_sum, hcls,
    hblk, List.map_map, Function.comp]
  refine congrArg some ?_
  have hcol : ∀ j, j < K → column ((List.range (num_blocks size)).map fun b =>
      (List.range K).map fun j =>
        (((block_items (oraclesOf tree values size) size b).count j : Nat) : Int)) j =
      (List.range (num_blocks size)).map fun b =>
        (((block_items (oraclesOf tree values size) size b).count j : Nat) : Int) :=
    fun j hj => column_counter K _ _ j hj
  have hpre : ∀ j b, j < K → b ≤ num_blocks size →
      ((column ((List.range (num_blocks size)).map fun b =>
        (List.range K).map fun j =>
          (((block_items (oraclesOf tree values size) size b).count j : Nat) : Int)) j).take
            b).sum =
      ((((oraclesOf tree values size).take (b * partition_size)).count j : Nat) : Int) := by
    intro j b hj hb'
    rw [hcol j hj, take_map_range _ _ _ hb',
      sum_count_blocks (fun b' => block_items (oraclesOf tree values size) size b') j b, hflat]
  have e1 : ((List.range (num_blocks size)).map fun b => (List.range K).map fun j =>
      ((column ((List.range (num_blocks size)).map fun b =>
        (List.range K).map fun j =>
          (((block_items (oraclesOf tree values size) size b).count j : Nat) : Int)) j).take
            b).sum) =
      (List.range (num_blocks size)).map fun b => (List.range K).map fun j =>
        ((((oraclesOf tree values size).take (b * partition_size)).count j : Nat) : Int) := by
    apply List.map_congr_left
    intro b hb'
    apply List.map_congr_left
    intro j hj
    exact hpre j b (List.mem_range.mp hj) (le_of_lt (List.mem_range.mp hb'))
  have e2 : ((List.range K).map fun j =>
      ((column ((List.range (num_blocks size)).map fun b =>
        (List.range K).map fun j =>
          (((block_items (oraclesOf tree values size) size b).count j : Nat) : Int)) j).take
            (num_blocks size)).sum) =
      (List.range K).map fun j => (((oraclesOf tree values size).count j : Nat) : Int) := by
    apply List.map_congr_left
    intro j hj
    rw [hpre j _ (List.mem_range.mp hj) (le_refl _), hall]
  have e3 : start_prefix_sum K ((List.range K).map fun j =>
      (((oraclesOf tree values size).count j : Nat) : Int)) =
      (List.range (K + 1)).map fun j =>
        (((oraclesOf tree values size).countP (fun x => decide (x < j)) : Nat) : Int) := by
    unfold start_prefix_sum
    apply List.map_congr_left
    intro j hj
    have hj' : j ≤ K := by have := List.mem_range.mp hj; omega
    rw [take_map_range _ _ _ hj', sum_count_lt]
  rw [Counts.mk.injEq]
  refine ⟨rfl, ?_, ?_, ?_⟩
  · rw [hflat]; exact hall
  · exact e1
  · rw [← e3, ← e2]; rfl

/-! ## Compaction -/

theorem foldl_store_writes (ofs : Int) (xs : List (Int × Nat)) :
    ∀ (k : Nat) (pre rest : List Int), (pre.length : Int) = ofs + k → xs.length ≤ rest.length →
      ((xs.enumFrom k).map fun kp => (ofs + (kp.1 : Int), key kp.2.1)).foldl store
          (some (pre ++ rest)) =
        some (pre ++ xs.map (fun p => key p.1) ++ rest.drop xs.length) := by
  induction xs with
  | nil => intro k pre rest _ _; simp
  | cons x xs ih =>
    intro k pre rest hpre hlen
    match rest, hlen with
    | r :: rest', hlen =>
      simp only [List.enumFrom_cons, List.map_cons, List.foldl_cons]
      have hst : store (some (pre ++ r :: rest')) (ofs + (k : Int), key x.1) =
          some ((pre ++ [key x.1]) ++ rest') := by
        have h1 : (ofs + (k : Int)).toNat = pre.length := by omega
        have h2 : 0 ≤ ofs + (k : Int) := by omega
        simp only [store, h1, h2, true_and]
        rw [if_pos (by simp)]
        rw [List.set_append_right _ _ (le_refl _)]
        simp
      rw [hst, ih (k + 1) (pre ++ [key x.1]) rest' (by simp; omega)
        (by simpa using hlen)]
      simp

theorem zip_filter_map (tree : List Int) (t : Int) (l : List Int) :
    ((l.zip (l.map fun v => classify tree (key v))).filter fun p =>
        decide ((p.2 : Int) = t)).map (fun p => key p.1) = compacted tree t l := by
  unfold compacted
  induction l with
  | nil => rfl
  | cons x l ih =>
    simp only [List.map_cons, List.zip_cons_cons, List.filter_cons]
    by_cases h : ((classify tree (key x) : Nat) : Int) = t
    · simp only [h, decide_True, if_true, List.map_cons, ih]
    · simp only [h, decide_False, Bool.false_eq_true, if_false, ih]

theorem compacted_append (tree : List Int) (t : Int) (l₁ l₂ : List Int) :
    compacted tree t (l₁ ++ l₂) = compacted tree t l₁ ++ compacted tree t l₂ := by
  simp [compacted]

theorem compacted_length (tree : List Int) (t : Int) (ht : 0 ≤ t) (l : List Int) :
    (compacted tree t l).length = (l.map fun v => classify tree (key v)).count t.toNat := by
  unfold compacted
  rw [List.length_map, ← List.countP_eq_length_filter, List.count_eq_countP, List.countP_map]
  apply List.countP_congr
  intro x _
  simp only [Function.comp, decide_eq_true_eq, beq_iff_eq]
  omega

theorem compacted_length_take_le (tree : List Int) (t : Int) (l : List Int) (k : Nat) :
    (compacted tree t (l.take k)).length ≤ (compacted tree t l).length := by
  conv_rhs => rw [← List.take_append_drop k l, compacted_append]
  simp

/-- One block of the compaction appends the keys of its partition that fall into the bucket. -/
theorem filter_block_spec (K : Nat) (tree values : List Int) (size t : Int) (out : List Int)
    (b : Nat) (ht : 0 ≤ t) (htK : t.toNat < K) (hb : b < num_blocks size)
    (hout : (compacted tree t (values.take size.toNat)).length ≤ out.length) :
    filter_block values size t (oraclesOf tree values size)
        ((List.range (num_blocks size)).map fun b => (List.range K).map fun j =>
          ((((oraclesOf tree values size).take (b * partition_size)).count j : Nat) : Int))
        (some (compacted tree t ((values.take size.toNat).take (b * partition_size)) ++
          out.drop (compacted tree t ((values.take size.toNat).take (b * partition_size))).length))
        b =
      some (compacted tree t ((values.take size.toNat).take ((b + 1) * partition_size)) ++
        out.drop
          (compacted tree t ((values.take size.toNat).take ((b + 1) * partition_size))).length) := by
  have hofs : block_offset ((List.range (num_blocks size)).map fun b => (List.range K).map fun j =>
          ((((oraclesOf tree values size).take (b * partition_size)).count j : Nat) : Int)) b t =
      some (((compacted tree t ((values.take size.toNat).take (b * partition_size))).length : Nat) :
        Int) := by
    unfold block_offset
    rw [List.get?_eq_getElem?, List.getElem?_map, List.getElem?_range hb]
    simp only [Option.map_some', readAt, if_pos ht]
    rw [List.get?_eq_getElem?, List.getElem?_map, List.getElem?_range htK]
    simp only [Option.map_some']
    rw [compacted_length tree t ht]
    simp [oraclesOf, List.map_take]
  have hitems : block_items (oraclesOf tree values size) size b =
      (block_items values size b).map fun v => classify tree (key v) := by
    rw [block_items_map]
    simp [block_items, oraclesOf, List.map_take, List.take_take]
  have hsplit : (values.take size.toNat).take ((b + 1) * partition_size) =
      (values.take size.toNat).take (b * partition_size) ++ block_items values size b := by
    rw [Nat.succ_mul, List.take_add]; rfl
  have hle := compacted_length_take_le tree t (values.take size.toNat) ((b + 1) * partition_size)
  rw [hsplit, compacted_append, List.length_append] at hle
  unfold filter_block
  rw [hofs]
  simp only [block_writes, hitems, List.enum]
  rw [foldl_store_writes _ _ 0 _ _ (by simp) (by
    rw [← List.length_map _ (fun p : Int × Nat => key p.1), zip_filter_map, List.length_drop]
    omega)]
  rw [hsplit, compacted_append, List.drop_drop]
  rw [← List.length_map _ (fun p : Int × Nat => key p.1), zip_filter_map, List.length_append]

/-- What `ssss_filter` computes after `ssss_count`: the keys of the chosen bucket, compacted at
the front of the output buffer; the rest of the buffer is left as it was. -/
theorem ssss_filter_spec (K : Nat) (tree values : List Int) (size t : Int) (out : List Int)
    (hs : 0 ≤ size) (hlen : size.toNat ≤ values.length) (ht : 0 ≤ t) (htK : t.toNat < K)
    (hout : (compacted tree t (values.take size.toNat)).length ≤ out.length) :
    ssss_filter values size (oraclesOf tree values size)
        ((List.range (num_blocks size)).map fun b => (List.range K).map fun j =>
          ((((oraclesOf tree values size).take (b * partition_size)).count j : Nat) : Int))
        t out =
      some (compacted tree t (values.take size.toNat) ++
        out.drop (compacted tree t (values.take size.toNat)).length) := by
  have hfold : ∀ b, b ≤ num_blocks size →
      (List.range b).foldl (filter_block values size t (oraclesOf tree values size)
        ((List.range (num_blocks size)).map fun b => (List.range K).map fun j =>
          ((((oraclesOf tree values size).take (b * partition_size)).count j : Nat) : Int)))
        (some out) =
      some (compacted tree t ((values.take size.toNat).take (b * partition_size)) ++
        out.drop
          (compacted tree t ((values.take size.toNat).take (b * partition_size))).length) := by
    intro b
    induction b with
    | zero => intro _; simp [compacted]
    | succ b ih =>
      intro hb
      rw [List.range_succ, List.foldl_append, ih (by omega)]
      simp only [List.foldl_cons, List.foldl_nil]
      exact filter_block_spec K tree values size t out b ht htK (by omega) hout
  have hcover := num_blocks_cover size hs
  have hall : (values.take size.toNat).take (num_blocks size * partition_size) =
      values.take size.toNat := by
    apply List.take_of_length_le
    simp only [List.length_take, num_blocks]
    omega
  have hol : (oraclesOf tree values size).length = size.toNat := by
    simp [oraclesOf]; omega
  unfold ssss_filter filter_bucket
  rw [if_neg (by omega)]
  have := hfold (num_blocks size) (le_refl _)
  rw [hall] at this
  exact this

/-! ## Rank location -/

/-- Rank location on non-decreasing boundaries that start at `0`: for a rank below the last
boundary the bucket is in range, its boundaries enclose the rank, and no earlier bucket ends
above the rank. -/
theorem locate_bucket_spec (K : Nat) (B : List Int) (rank : Int)
    (hmono : NonDecreasing B (K + 1)) (h0 : B.getD 0 0 = 0)
    (hr0 : 0 ≤ rank) (hr : rank < B.getD K 0) :
    0 ≤ locate_bucket K B rank ∧ locate_bucket K B rank < K ∧
    B.getD (locate_bucket K B rank).toNat 0 ≤ rank ∧
    rank < B.getD ((locate_bucket K B rank).toNat + 1) 0 ∧
    ∀ j : Nat, (j : Int) < locate_bucket K B rank → B.getD (j + 1) 0 ≤ rank := by
  obtain ⟨h1, h2, h3⟩ := upper_bound_spec B (K + 1) rank hmono
  have hpos : 0 < upper_bound B (K + 1) rank := by
    by_contra hcon
    have hz : upper_bound B (K + 1) rank = 0 := by omega
    have := h3 0 (by omega) (by omega)
    omega
  have hle : upper_bound B (K + 1) rank ≤ K := by
    by_contra hcon
    have := h2 K (by omega)
    omega
  have hb : (locate_bucket K B rank).toNat = upper_bound B (K + 1) rank - 1 := by
    simp only [locate_bucket]; omega
  have hb2 : locate_bucket K B rank = ((upper_bound B (K + 1) rank - 1 : Nat) : Int) := by
    simp only [locate_bucket]; omega
  refine ⟨by omega, by omega, ?_, ?_, ?_⟩
  · rw [hb]; exact h2 _ (by omega)
  · rw [hb]; exact h3 _ (by omega) (by omega)
  · intro j hj
    exact h2 (j + 1) (by omega)

theorem readAt_eq_getD (a : List Int) (i : Int) (h0 : 0 ≤ i) (h : i.toNat < a.length) :
    readAt a i = some (a.getD i.toNat 0) := by
  simp only [readAt, if_pos h0]
  rw [List.get?_eq_getElem?, List.getD_eq_getElem?_getD, List.getElem?_eq_getElem h]
  rfl

theorem boundaries_length (K : Nat) (o : List Nat) : (boundaries K o).length = K + 1 := by
  simp [boundaries]

theorem boundaries_getD (K : Nat) (o : List Nat) (j : Nat) (hj : j < K + 1) :
    (boundaries K o).getD j 0 = ((o.countP (fun x => decide (x < j)) : Nat) : Int) := by
  rw [List.getD_eq_getElem?_getD, boundaries, List.getElem?_map, List.getElem?_range hj]
  rfl

theorem countP_lt_mono (o : List Nat) (i j : Nat) (hij : i ≤ j) :
    o.countP (fun x => decide (x < i)) ≤ o.countP (fun x => decide (x < j)) := by
  apply List.countP_mono_left
  intro x _ hx
  simp only [decide_eq_true_eq] at hx ⊢
  omega

theorem boundaries_nonDecreasing (K : Nat) (o : List Nat) :
    NonDecreasing (boundaries K o) (K + 1) := by
  intro i j hij hj
  rw [boundaries_getD K o i (by omega), boundaries_getD K o j hj]
  exact_mod_cast countP_lt_mono o i j hij

theorem boundaries_zero (K : Nat) (o : List Nat) : (boundaries K o).getD 0 0 = 0 := by
  rw [boundaries_getD K o 0 (by omega)]
  simp

theorem boundaries_last (K : Nat) (o : List Nat) (h : ∀ x ∈ o, x < K) :
    (boundaries K o).getD K 0 = (o.length : Int) := by
  rw [boundaries_getD K o K (by omega)]
  congr 1
  rw [List.countP_eq_length]
  intro x hx
  simpa using h x hx

theorem oraclesOf_lt (K : Nat) (tree values : List Int) (size : Int) (hK : 0 < K)
    (hsorted : tree.Sorted (· ≤ ·)) (htl : tree.length = K - 1) :
    ∀ x ∈ oraclesOf tree values size, x < K := by
  intro x hx
  simp only [oraclesOf, List.mem_map] at hx
  obtain ⟨v, _, rfl⟩ := hx
  have := classify_le tree hsorted (key v)
  omega

theorem oraclesOf_length (tree values : List Int) (size : Int)
    (hlen : size.toNat ≤ values.length) : (oraclesOf tree values size).length = size.toNat := by
  simp [oraclesOf]; omega

theorem compacted_eq_filter_keys (tree : List Int) (t : Int) (ht : 0 ≤ t) (l : List Int) :
    compacted tree t l = (l.map key).filter fun k => decide (classify tree k = t.toNat) := by
  unfold compacted
  rw [List.filter_map]
  congr 1
  apply List.filter_congr
  intro x _
  simp only [Function.comp, decide_eq_decide]
  omega

theorem key_nonneg (v : Int) : 0 ≤ key v := by simp [key]

theorem key_key (v : Int) : key (key v) = key v := by simp [key]

theorem key_of_nonneg (v : Int) (h : 0 ≤ v) : key v = v := by
  simp only [key]; omega

theorem compacted_nonneg (tree : List Int) (t : Int) (l : List Int) :
    ∀ x ∈ compacted tree t l, 0 ≤ x := by
  intro x hx
  simp only [compacted, List.mem_map] at hx
  obtain ⟨v, _, rfl⟩ := hx
  exact key_nonneg v

/-! ## One refinement pass -/

/-- One pass of count, rank location and compaction on a valid working array: all three
succeed, the chosen bucket is in range and non-empty, the re-based rank is valid for it, the
front of the output buffer holds the keys of the bucket, and the order statistic looked for is
the one of the re-based rank in the bucket. -/
theorem refine_pass (K : Nat) (values : List Int) (size rank : Int)
    (hK : 0 < K) (hK2 : K ≤ 256) (hs : 1 ≤ size) (hlen : size.toNat ≤ values.length)
    (hr0 : 0 ≤ rank) (hr : rank < size) :
    ∃ c lo hi, ssss_count K values size = some c ∧
      0 ≤ locate_bucket K c.total_counts rank ∧ locate_bucket K c.total_counts rank < K ∧
      readAt c.total_counts (locate_bucket K c.total_counts rank) = some lo ∧
      readAt c.total_counts (locate_bucket K c.total_counts rank + 1) = some hi ∧
      0 ≤ lo ∧ 0 ≤ rank - lo ∧ rank - lo < hi - lo ∧ hi - lo ≤ size ∧
      (compacted c.tree (locate_bucket K c.total_counts rank) (values.take size.toNat)).length =
        (hi - lo).toNat ∧
      (sortKeys (compacted c.tree (locate_bucket K c.total_counts rank)
          (values.take size.toNat))).get? (rank - lo).toNat =
        (sortKeys ((values.take size.toNat).map key)).get? rank.toNat ∧
      ∀ buf : List Int, (hi - lo).toNat ≤ buf.length →
        ssss_filter values size c.oracles c.partial_counts
            (locate_bucket K c.total_counts rank) buf =
          some (compacted c.tree (locate_bucket K c.total_counts rank)
              (values.take size.toNat) ++ buf.drop (hi - lo).toNat) := by
  obtain ⟨tree, hsorted, htl, _, hc⟩ := ssss_count_spec K values size hK hK2 hs hlen
  have hol := oraclesOf_length tree values size hlen
  have hB : (List.range (K + 1)).map (fun j =>
      (((oraclesOf tree values size).countP (fun x => decide (x < j)) : Nat) : Int)) =
      boundaries K (oraclesOf tree values size) := rfl
  rw [hB] at hc
  have hlast := boundaries_last K (oraclesOf tree values size)
    (oraclesOf_lt K tree values size hK hsorted htl)
  obtain ⟨hb0, hbK, hlo, hhi, _⟩ := locate_bucket_spec K (boundaries K (oraclesOf tree values size))
    rank (boundaries_nonDecreasing K _) (boundaries_zero K _) hr0 (by rw [hlast, hol]; omega)
  generalize hbk : locate_bucket K (boundaries K (oraclesOf tree values size)) rank = bucket
    at hb0 hbK hlo hhi
  obtain ⟨t, rfl⟩ : ∃ t : Nat, bucket = (t : Int) := ⟨bucket.toNat, by omega⟩
  have htK : t < K := by omega
  simp only [Int.toNat_ofNat] at hlo hhi
  rw [boundaries_getD K _ t (by omega)] at hlo
  rw [boundaries_getD K _ (t + 1) (by omega)] at hhi
  have hcount : ∀ j, (oraclesOf tree values size).countP (fun x => decide (x < j)) =
      ((values.take size.toNat).map key).countP (fun x => decide (classify tree x < j)) := by
    intro j
    simp only [oraclesOf, List.countP_map]
    rfl
  have hclen : (compacted tree (t : Int) (values.take size.toNat)).length =
      ((values.take size.toNat).map key).countP (fun x => decide (classify tree x = t)) := by
    rw [compacted_eq_filter_keys tree _ (by omega), List.countP_eq_length_filter]
    simp
  have hsplit := countP_lt_succ (classify tree) t ((values.take size.toNat).map key)
  have hle : (oraclesOf tree values size).countP (fun x => decide (x < t + 1)) ≤ size.toNat := by
    rw [← hol]; exact List.countP_le_length _
  rw [hcount] at hlo hhi hle
  refine ⟨_, ((((values.take size.toNat).map key).countP
      (fun x => decide (classify tree x < t)) : Nat) : Int),
    ((((values.take size.toNat).map key).countP
      (fun x => decide (classify tree x < t + 1)) : Nat) : Int),
    hc, ?_, ?_, ?_, ?_, ?_, ?_, ?_, ?_, ?_, ?_, ?_⟩
  · show 0 ≤ locate_bucket K (boundaries K (oraclesOf tree values size)) rank
    rw [hbk]; omega
  · show locate_bucket K (boundaries K (oraclesOf tree values size)) rank < K
    rw [hbk]; omega
  · show readAt (boundaries K (oraclesOf tree values size))
      (locate_bucket K (boundaries K (oraclesOf tree values size)) rank) = _
    rw [hbk, readAt_eq_getD _ _ (by omega) (by rw [boundaries_length]; simp; omega)]
    simp only [Int.toNat_ofNat]
    rw [boundaries_getD K _ t (by omega), hcount]
  · show readAt (boundaries K (oraclesOf tree values size))
      (locate_bucket K (boundaries K (oraclesOf tree values size)) rank + 1) = _
    rw [hbk, readAt_eq_getD _ _ (by omega) (by rw [boundaries_length]; omega)]
    have : ((t : Int) + 1).toNat = t + 1 := by omega
    rw [this, boundaries_getD K _ (t + 1) (by omega), hcount]
  · omega
  · omega
  · omega
  · omega
  · show (compacted tree (locate_bucket K (boundaries K (oraclesOf tree values size)) rank)
      (values.take size.toNat)).length = _
    rw [hbk, hclen]; omega
  · show (sortKeys (compacted tree (locate_bucket K (boundaries K (oraclesOf tree values size))
      rank) (values.take size.toNat))).get? _ = _
    rw [hbk, compacted_eq_filter_keys tree _ (by omega)]
    simp only [Int.toNat_ofNat]
    have hrr : (rank - ((((values.take size.toNat).map key).countP
        (fun x => decide (classify tree x < t)) : Nat) : Int)).toNat =
        rank.toNat - ((values.take size.toNat).map key).countP
          (fun x => decide (classify tree x < t)) := by omega
    rw [hrr]
    exact select_refine (classify tree) (classify_mono tree hsorted) t _ rank.toNat
      (by omega) (by omega)
  · intro buf hbuf
    show ssss_filter values size (oraclesOf tree values size) _
      (locate_bucket K (boundaries K (oraclesOf tree values size)) rank) buf = _
    rw [hbk]
    have hcl : (compacted tree (t : Int) (values.take size.toNat)).length =
        ((((values.take size.toNat).map key).countP
            (fun x => decide (classify tree x < t + 1)) : Nat) -
          (((values.take size.toNat).map key).countP
            (fun x => decide (classify tree x < t)) : Nat) : Int).toNat := by
      rw [hclen]; omega
    rw [← hcl] at hbuf ⊢
    exact ssss_filter_spec K tree values size t buf (by omega) hlen (by omega)
      (by simpa using htK) hbuf

/-! ## The loop -/

theorem map_key_of_nonneg (l : List Int) (h : ∀ x ∈ l, 0 ≤ x) : l.map key = l := by
  induction l with
  | nil => rfl
  | cons x l ih =>
    rw [List.map_cons, key_of_nonneg x (h x (List.mem_cons_self _ _)),
      ih (fun y hy => h y (List.mem_cons_of_mem _ hy))]

theorem readAt_sort (l : List Int) (rank : Int) (h : 0 ≤ rank) :
    readAt (sortKeys l) rank = (sortKeys l).get? rank.toNat := by
  simp [readAt, h]

/-- The loop started on a working set that holds the answer at the running rank: it ends with
that answer, within the allotted rounds, and its steps have the shape `LoopTrace`. -/
theorem select_loop_spec (K basecase_size : Nat) (hK : 0 < K) (hK2 : K ≤ 256) (v : Int) :
    ∀ (fuel : Nat) (step : Int) (out inb : List Int) (bucket_size rank : Int),
      0 ≤ step → step ≤ 5 → 6 ≤ step + fuel →
      1 ≤ bucket_size → 0 ≤ rank → rank < bucket_size →
      bucket_size.toNat ≤ out.length → bucket_size.toNat ≤ inb.length →
      (∀ x ∈ out.take bucket_size.toNat, 0 ≤ x) →
      (sortKeys (out.take bucket_size.toNat)).get? rank.toNat = some v →
      (select_loop K basecase_size fuel step out inb bucket_size rank).outcome =
          Outcome.value v ∧
        LoopTrace K basecase_size step bucket_size rank
          (select_loop K basecase_size fuel step out inb bucket_size rank).trace := by
  intro fuel
  induction fuel with
  | zero => intro step _ _ _ _ _ h1 h2 h3; omega
  | succ fuel ih =>
    intro step out inb bs rank hs0 hs5 hfuel hbs hr0 hr hout hinb hnn hv
    unfold select_loop
    by_cases hgt : bs > (basecase_size : Int)
    · rw [if_pos hgt]
      obtain ⟨c, lo, hi, hc, hb0, hbK, hlo, hhi, hlo0, hrl, hrh, hle, hclen, hsel, hfilter⟩ :=
        refine_pass K out bs rank hK hK2 hbs hout hr0 hr
      have hf := hfilter inb (by omega)
      rw [map_key_of_nonneg _ hnn, hv] at hsel
      have htake : (compacted c.tree (locate_bucket K c.total_counts rank)
          (out.take bs.toNat) ++ inb.drop (hi - lo).toNat).take (hi - lo).toNat =
          compacted c.tree (locate_bucket K c.total_counts rank) (out.take bs.toNat) :=
        List.take_left' hclen
      have hlen' : (hi - lo).toNat ≤ (compacted c.tree (locate_bucket K c.total_counts rank)
          (out.take bs.toNat) ++ inb.drop (hi - lo).toNat).length := by
        rw [List.length_append, hclen]; omega
      simp only [hc, hf, hlo, hhi]
      by_cases hstep : step + 1 > 5
      · rw [if_pos hstep]
        refine ⟨?_, ?_⟩
        · simp only [Run.after, nth_element]
          rw [if_neg (by omega), htake, readAt_sort _ _ hrl, hsel]
          rfl
        · exact LoopTrace.fallback step bs rank _ _ _ hgt hstep hb0 hbK (by omega) (by omega)
            hrl hrh
      · rw [if_neg hstep]
        obtain ⟨h1, h2⟩ := ih (step + 1) _ out (hi - lo) (rank - lo) (by omega) (by omega)
          (by omega) (by omega) hrl hrh hlen' (by omega)
          (by rw [htake]; exact compacted_nonneg _ _ _) (by rw [htake]; exact hsel)
        refine ⟨?_, ?_⟩
        · simpa only [Run.after] using h1
        · exact LoopTrace.iter step bs rank _ _ _ _ hgt hstep hb0 hbK (by omega) (by omega)
            hrl hrh h2
    · rw [if_neg hgt]
      refine ⟨?_, LoopTrace.base step bs rank hgt⟩
      simp only [basecase_select]
      rw [if_neg (by omega), readAt_sort _ _ hr0, hv]
      rfl

/-! ## The driver -/

/-- On a valid input `threshold_select` returns the key of the requested rank, after a first
pass into a non-empty bucket and a loop of the shape `LoopTrace`. -/
theorem threshold_select_spec (K basecase_size : Nat) (values : List Int) (size rank : Int)
    (hK : 0 < K) (hK2 : K ≤ 256) (hs : 1 ≤ size) (hlen : size.toNat ≤ values.length)
    (hr0 : 0 ≤ rank) (hr : rank < size) :
    ∃ v bucket bucket_size rank' tr,
      threshold_select K basecase_size values size rank =
        ⟨Event.ssss_count size :: Event.locate bucket bucket_size rank' ::
          Event.ssss_filter size bucket :: tr, Outcome.value v⟩ ∧
      (sortKeys ((values.take size.toNat).map key)).get? rank.toNat = some v ∧
      0 ≤ bucket ∧ bucket < K ∧ 1 ≤ bucket_size ∧ bucket_size ≤ size ∧
      0 ≤ rank' ∧ rank' < bucket_size ∧
      LoopTrace K basecase_size 0 bucket_size rank' tr := by
  obtain ⟨c, lo, hi, hc, hb0, hbK, hlo, hhi, hlo0, hrl, hrh, hle, hclen, hsel, hfilter⟩ :=
    refine_pass K values size rank hK hK2 hs hlen hr0 hr
  have hf := hfilter (List.replicate (hi - lo).toNat 0) (by simp)
  have hex : ∃ v, (sortKeys ((values.take size.toNat).map key)).get? rank.toNat = some v := by
    have hl : rank.toNat < (sortKeys ((values.take size.toNat).map key)).length := by
      rw [sortKeys_length, List.length_map, List.length_take]; omega
    exact ⟨_, List.get?_eq_get hl⟩
  obtain ⟨v, hv⟩ := hex
  rw [hv] at hsel
  have htake : (compacted c.tree (locate_bucket K c.total_counts rank)
      (values.take size.toNat) ++ (List.replicate (hi - lo).toNat 0).drop (hi - lo).toNat).take
        (hi - lo).toNat =
      compacted c.tree (locate_bucket K c.total_counts rank) (values.take size.toNat) :=
    List.take_left' hclen
  obtain ⟨h1, h2⟩ := select_loop_spec K basecase_size hK hK2 v 6 0
    (compacted c.tree (locate_bucket K c.total_counts rank) (values.take size.toNat) ++
      (List.replicate (hi - lo).toNat 0).drop (hi - lo).toNat)
    (List.replicate (hi - lo).toNat 0) (hi - lo) (rank - lo) (le_refl _) (by omega) (by omega)
    (by omega) hrl hrh (by rw [List.length_append, hclen]; omega) (by simp)
    (by rw [htake]; exact compacted_nonneg _ _ _) (by rw [htake]; exact hsel)
  refine ⟨v, locate_bucket K c.total_counts rank, hi - lo, rank - lo, _, ?_, hv, hb0, hbK,
    by omega, hle, hrl, hrh, h2⟩
  unfold threshold_select
  simp only [hc, hlo, hhi, hf, Run.after]
  rw [Run.mk.injEq]
  exact ⟨by simp, h1⟩

/-! ## Consequences of the shape of the loop -/

theorem loopTrace_locate (K bc : Nat) (step bs rank : Int) (tr : List Event)
    (h : LoopTrace K bc step bs rank tr) :
    ∀ b bs' rk, Event.locate b bs' rk ∈ tr → 0 ≤ b ∧ b < K ∧ 1 ≤ bs' ∧ 0 ≤ rk ∧ rk < bs' := by
  induction h with
  | base step bs rank h => intro b bs' rk hm; simp at hm
  | fallback step bs rank bucket bs2 rk2 h hstep hb0 hbK hsz hle hr0 hr =>
    intro b bs' rk hm
    simp only [List.mem_cons, List.mem_singleton, Event.locate.injEq, List.mem_nil_iff,
      or_false, false_or, reduceCtorEq] at hm
    obtain ⟨rfl, rfl, rfl⟩ := hm
    exact ⟨hb0, hbK, hsz, hr0, hr⟩
  | iter step bs rank bucket bs2 rk2 tr h hstep hb0 hbK hsz hle hr0 hr hrest ih =>
    intro b bs' rk hm
    simp only [List.mem_cons, Event.locate.injEq, false_or, reduceCtorEq] at hm
    rcases hm with ⟨rfl, rfl, rfl⟩ | hm
    · exact ⟨hb0, hbK, hsz, hr0, hr⟩
    · exact ih b bs' rk hm

theorem loopTrace_final (K bc : Nat) (step bs rank : Int) (tr : List Event)
    (h : LoopTrace K bc step bs rank tr) (hbs : 1 ≤ bs) (h0 : 0 ≤ rank) (h1 : rank < bs) :
    ∀ bs' rk, (Event.nth_element bs' rk ∈ tr ∨ Event.basecase_select bs' rk ∈ tr) →
      1 ≤ bs' ∧ 0 ≤ rk ∧ rk < bs' := by
  induction h with
  | base step bs rank h =>
    intro bs' rk hm
    simp only [List.mem_singleton, Event.basecase_select.injEq, false_or, reduceCtorEq] at hm
    obtain ⟨rfl, rfl⟩ := hm
    exact ⟨hbs, h0, h1⟩
  | fallback step bs rank bucket bs2 rk2 h hstep hb0 hbK hsz hle hr0 hr =>
    intro bs' rk hm
    simp only [List.mem_cons, List.mem_singleton, Event.nth_element.injEq, List.mem_nil_iff,
      or_false, false_or, reduceCtorEq] at hm
    obtain ⟨rfl, rfl⟩ := hm
    exact ⟨hsz, hr0, hr⟩
  | iter step bs rank bucket bs2 rk2 tr h hstep hb0 hbK hsz hle hr0 hr hrest ih =>
    intro bs' rk hm
    simp only [List.mem_cons, false_or, reduceCtorEq] at hm
    exact ih hsz hr0 hr bs' rk hm

theorem loopTrace_small (K bc : Nat) (step bs rank : Int) (tr : List Event)
    (h : LoopTrace K bc step bs rank tr) (hsmall : bs ≤ bc) :
    tr = [Event.basecase_select bs rank] := by
  cases h with
  | base h => rfl
  | fallback bucket bs2 rk2 h => omega
  | iter bucket bs2 rk2 tr h => omega

theorem loopTrace_ne_nil (K bc : Nat) (step bs rank : Int) (tr : List Event)
    (h : LoopTrace K bc step bs rank tr) : tr ≠ [] := by
  cases h <;> simp

/-- The loop entered with counter `step` makes at most `6 - step` passes; it ends in the
fallback exactly when it makes all of them and in the base case, on a working set within the
base-case size, when it makes fewer. -/
theorem loopTrace_passes (K bc : Nat) (step bs rank : Int) (tr : List Event)
    (h : LoopTrace K bc step bs rank tr) (hs5 : step ≤ 5) :
    ((∃ bs' rk, tr.getLast? = some (Event.nth_element bs' rk)) ∧
        (tr.countP Event.isCount : Int) = 6 - step) ∨
      ((∃ bs' rk, tr.getLast? = some (Event.basecase_select bs' rk) ∧ bs' ≤ bc) ∧
        (tr.countP Event.isCount : Int) < 6 - step) := by
  induction h with
  | base step bs rank h =>
    right
    refine ⟨⟨bs, rank, rfl, by omega⟩, ?_⟩
    simp [Event.isCount]; omega
  | fallback step bs rank bucket bs2 rk2 h hstep hb0 hbK hsz hle hr0 hr =>
    left
    refine ⟨⟨bs2, rk2, rfl⟩, ?_⟩
    simp [Event.isCount, List.countP_cons]; omega
  | iter step bs rank bucket bs2 rk2 tr h hstep hb0 hbK hsz hle hr0 hr hrest ih =>
    have hne := loopTrace_ne_nil _ _ _ _ _ _ hrest
    have hlast : (Event.ssss_count bs :: Event.ssss_filter bs bucket ::
        Event.locate bucket bs2 rk2 :: tr).getLast? = tr.getLast? := by
      rw [List.getLast?_cons_cons, List.getLast?_cons_cons]
      cases tr with
      | nil => exact absurd rfl hne
      | cons e tr => rw [List.getLast?_cons_cons]
    have hcount : (Event.ssss_count bs :: Event.ssss_filter bs bucket ::
        Event.locate bucket bs2 rk2 :: tr).countP Event.isCount =
        tr.countP Event.isCount + 1 := by
      simp [Event.isCount, List.countP_cons]
    rw [hlast, hcount]
    rcases ih (by omega) with ⟨h1, h2⟩ | ⟨h1, h2⟩
    · left; exact ⟨h1, by push_cast; omega⟩
    · right; exact ⟨h1, by push_cast; omega⟩

/-! ## The claims -/

theorem take_length_cast (V : List Int) : V.take ((V.length : Int)).toNat = V := by
  simp

/-- C1: for every non-empty array `V` and every rank `0 ≤ r < |V|`, `threshold_select` on `V`
with size `|V|` and rank `r` returns the `r`-th smallest (zero-based, ascending) of the
magnitudes of the entries of `V`. -/
theorem threshold_select_rank (K basecase_size : Nat) (V : List Int) (r : Int)
    (hK : 0 < K) (hK2 : K ≤ 256) (hV : V ≠ []) (hr0 : 0 ≤ r) (hr : r < V.length) :
    ∃ v, (threshold_select K basecase_size V V.length r).outcome = Outcome.value v ∧
      (sortKeys (V.map key)).get? r.toNat = some v := by
  have hpos : 0 < V.length := List.length_pos.mpr hV
  obtain ⟨v, _, _, _, _, hrun, hv, _⟩ := threshold_select_spec K basecase_size V V.length r
    hK hK2 (by omega) (by simp) hr0 hr
  rw [take_length_cast] at hv
  exact ⟨v, by rw [hrun], hv⟩

/-- Instance for C1: on the array of the specification, `V = [3, -7, 2, -2, 5, -1]` gives `1`
for rank `0`, `2` for rank `2` and `7` for rank `5`. -/
theorem threshold_select_rank_witness :
    (threshold_select 256 1024 [3, -7, 2, -2, 5, -1] 6 0).outcome = Outcome.value 1 ∧
    (threshold_select 256 1024 [3, -7, 2, -2, 5, -1] 6 2).outcome = Outcome.value 2 ∧
    (threshold_select 256 1024 [3, -7, 2, -2, 5, -1] 6 5).outcome = Outcome.value 7 := by
  refine ⟨?_, ?_, ?_⟩
  · obtain ⟨v, h1, h2⟩ := threshold_select_rank 256 1024 [3, -7, 2, -2, 5, -1] 0 (by omega)
      (by omega) (by decide) (by decide) (by decide)
    have h3 : (sortKeys (([3, -7, 2, -2, 5, -1] : List Int).map key)).get? (0 : Int).toNat =
        some 1 := by decide
    have e : ((([3, -7, 2, -2, 5, -1] : List Int).length : Nat) : Int) = 6 := rfl
    rw [h3] at h2
    rw [e, ← Option.some.inj h2] at h1
    exact h1
  · obtain ⟨v, h1, h2⟩ := threshold_select_rank 256 1024 [3, -7, 2, -2, 5, -1] 2 (by omega)
      (by omega) (by decide) (by decide) (by decide)
    have h3 : (sortKeys (([3, -7, 2, -2, 5, -1] : List Int).map key)).get? (2 : Int).toNat =
        some 2 := by decide
    have e : ((([3, -7, 2, -2, 5, -1] : List Int).length : Nat) : Int) = 6 := rfl
    rw [h3] at h2
    rw [e, ← Option.some.inj h2] at h1
    exact h1
  · obtain ⟨v, h1, h2⟩ := threshold_select_rank 256 1024 [3, -7, 2, -2, 5, -1] 5 (by omega)
      (by omega) (by decide) (by decide) (by decide)
    have h3 : (sortKeys (([3, -7, 2, -2, 5, -1] : List Int).map key)).get? (5 : Int).toNat =
        some 7 := by decide
    have e : ((([3, -7, 2, -2, 5, -1] : List Int).length : Nat) : Int) = 6 := rfl
    rw [h3] at h2
    rw [e, ← Option.some.inj h2] at h1
    exact h1

/-- C2: permutation invariance: for every non-empty array `V`, every permutation `W` of `V`
and every valid rank `r`, the runs on `V` and on `W` return the same value (their traces may
differ). -/
theorem threshold_select_perm (K basecase_size : Nat) (V W : List Int) (r : Int)
    (hK : 0 < K) (hK2 : K ≤ 256) (hV : V ≠ []) (hperm : W.Perm V)
    (hr0 : 0 ≤ r) (hr : r < V.length) :
    ∃ v, (threshold_select K basecase_size V V.length r).outcome = Outcome.value v ∧
      (threshold_select K basecase_size W W.length r).outcome = Outcome.value v := by
  have hpos : 0 < V.length := List.length_pos.mpr hV
  have hlen : W.length = V.length := hperm.length_eq
  obtain ⟨v, _, _, _, _, hrun, hv, _⟩ := threshold_select_spec K basecase_size V V.length r
    hK hK2 (by omega) (by simp) hr0 hr
  obtain ⟨w, _, _, _, _, hrun', hw, _⟩ := threshold_select_spec K basecase_size W W.length r
    hK hK2 (by omega) (by simp) hr0 (by omega)
  rw [take_length_cast] at hv hw
  rw [sortKeys_eq_of_perm (hperm.map key), hv] at hw
  have hvw : v = w := Option.some.inj hw
  subst hvw
  exact ⟨v, by rw [hrun], by rw [hrun']⟩

/-- Instance for C2: on a reversed array. -/
theorem threshold_select_perm_witness :
    ∃ v, (threshold_select 4 2 [3, -7, 2, -2, 5, -1]
        (([3, -7, 2, -2, 5, -1] : List Int).length : Int) 3).outcome = Outcome.value v ∧
      (threshold_select 4 2 [-1, 5, -2, 2, -7, 3]
        (([-1, 5, -2, 2, -7, 3] : List Int).length : Int) 3).outcome = Outcome.value v :=
  threshold_select_perm 4 2 [3, -7, 2, -2, 5, -1] [-1, 5, -2, 2, -7, 3] 3 (by decide)
    (by decide) (by decide) (List.reverse_perm [3, -7, 2, -2, 5, -1]) (by decide) (by decide)

/-- C3: rank location by `std::upper_bound` over the `K + 1` cumulative boundaries: for every
non-decreasing boundary array `B` with `B[0] = 0` and every rank with `0 ≤ rank < B[K]`, the
chosen bucket is the smallest `b` in `[0, K)` with `B[b + 1] > rank`, the reads of `B[b]` and
`B[b + 1]` are in bounds and `B[b] ≤ rank`; the first pass and the loop body both locate the
bucket this way and re-base the rank to `rank - B[b]`. -/
theorem rank_locator_upper_bound (K : Nat) (B : List Int) (rank : Int)
    (hlen : B.length = K + 1) (hmono : NonDecreasing B (K + 1)) (h0 : B.getD 0 0 = 0)
    (hr0 : 0 ≤ rank) (hr : rank < B.getD K 0) :
    (∃ b : Nat, locate_bucket K B rank = (b : Int) ∧ b < K ∧ rank < B.getD (b + 1) 0 ∧
      (∀ j, j < b → ¬ rank < B.getD (j + 1) 0) ∧
      readAt B (locate_bucket K B rank) = some (B.getD b 0) ∧
      readAt B (locate_bucket K B rank + 1) = some (B.getD (b + 1) 0) ∧
      B.getD b 0 ≤ rank) ∧
    (∀ (basecase_size : Nat) (values : List Int) (size : Int) (c : Counts) (lo hi : Int),
      ssss_count K values size = some c → c.total_counts = B →
      readAt B (locate_bucket K B rank) = some lo →
      readAt B (locate_bucket K B rank + 1) = some hi →
      ∃ tr, (threshold_select K basecase_size values size rank).trace =
        Event.ssss_count size :: Event.locate (locate_bucket K B rank) (hi - lo) (rank - lo) ::
          tr) ∧
    (∀ (basecase_size fuel : Nat) (step : Int) (tmp_out tmp_in : List Int) (bucket_size : Int)
      (c : Counts) (out : List Int) (lo hi : Int),
      bucket_size > basecase_size → ssss_count K tmp_out bucket_size = some c →
      c.total_counts = B →
      ssss_filter tmp_out bucket_size c.oracles c.partial_counts (locate_bucket K B rank)
        tmp_in = some out →
      readAt B (locate_bucket K B rank) = some lo →
      readAt B (locate_bucket K B rank + 1) = some hi →
      ∃ tr, (select_loop K basecase_size (fuel + 1) step tmp_out tmp_in bucket_size rank).trace =
        Event.ssss_count bucket_size :: Event.ssss_filter bucket_size (locate_bucket K B rank) ::
          Event.locate (locate_bucket K B rank) (hi - lo) (rank - lo) :: tr) := by
  refine ⟨?_, ?_, ?_⟩
  · obtain ⟨hb0, hbK, hlo, hhi, hmin⟩ := locate_bucket_spec K B rank hmono h0 hr0 hr
    refine ⟨(locate_bucket K B rank).toNat, by omega, by omega, hhi, ?_, ?_, ?_, hlo⟩
    · intro j hj
      have := hmin j (by omega)
      omega
    · exact readAt_eq_getD B _ hb0 (by omega)
    · rw [readAt_eq_getD B _ (by omega) (by omega)]
      have : (locate_bucket K B rank + 1).toNat = (locate_bucket K B rank).toNat + 1 := by omega
      rw [this]
  · intro basecase_size values size c lo hi hc hB hlo hhi
    subst hB
    unfold threshold_select
    simp only [hc, hlo, hhi, Run.after]
    exact ⟨_, rfl⟩
  · intro basecase_size fuel step tmp_out tmp_in bucket_size c out lo hi hgt hc hB hf hlo hhi
    subst hB
    unfold select_loop
    rw [if_pos hgt]
    simp only [hc, hf, hlo, hhi, Run.after]
    exact ⟨_, rfl⟩

/-- Instance for C3: on the boundaries `[0, 3, 4, 5, 6]` of four buckets and rank `3`. -/
theorem rank_locator_upper_bound_witness :
    ∃ b : Nat, locate_bucket 4 [0, 3, 4, 5, 6] 3 = (b : Int) ∧ b < 4 ∧
      (3 : Int) < ([0, 3, 4, 5, 6] : List Int).getD (b + 1) 0 ∧
      (∀ j, j < b → ¬ (3 : Int) < ([0, 3, 4, 5, 6] : List Int).getD (j + 1) 0) ∧
      readAt [0, 3, 4, 5, 6] (locate_bucket 4 [0, 3, 4, 5, 6] 3) =
        some (([0, 3, 4, 5, 6] : List Int).getD b 0) ∧
      readAt [0, 3, 4, 5, 6] (locate_bucket 4 [0, 3, 4, 5, 6] 3 + 1) =
        some (([0, 3, 4, 5, 6] : List Int).getD (b + 1) 0) ∧
      ([0, 3, 4, 5, 6] : List Int).getD b 0 ≤ 3 :=
  (rank_locator_upper_bound 4 [0, 3, 4, 5, 6] 3 (by decide)
    (by
      intro i j hij hj
      have hi : i < 5 := by omega
      interval_cases j <;> interval_cases i <;> first | omega | decide)
    (by decide) (by decide) (by decide)).1

/-- C4: whenever the rank is valid, every rank location of the run, in the first pass and in
every loop iteration, chooses a bucket in range with at least one entry, so the compacted
candidate buffer is never empty. -/
theorem located_bucket_nonempty (K basecase_size : Nat) (V : List Int) (r : Int)
    (hK : 0 < K) (hK2 : K ≤ 256) (hV : V ≠ []) (hr0 : 0 ≤ r) (hr : r < V.length) :
    (∃ b bs rk, Event.locate b bs rk ∈ (threshold_select K basecase_size V V.length r).trace) ∧
    ∀ b bs rk, Event.locate b bs rk ∈ (threshold_select K basecase_size V V.length r).trace →
      0 ≤ b ∧ b < K ∧ 1 ≤ bs := by
  have hpos : 0 < V.length := List.length_pos.mpr hV
  obtain ⟨v, b0, bs0, rk0, tr, hrun, _, hb0, hbK, hbs, _, hrk0, hrk, hloop⟩ :=
    threshold_select_spec K basecase_size V V.length r hK hK2 (by omega) (by simp) hr0 hr
  rw [hrun]
  refine ⟨⟨b0, bs0, rk0, by simp⟩, ?_⟩
  intro b bs rk hm
  simp only [List.mem_cons, Event.locate.injEq, false_or, reduceCtorEq] at hm
  rcases hm with ⟨rfl, rfl, rfl⟩ | hm
  · exact ⟨hb0, hbK, hbs⟩
  · obtain ⟨h1, h2, h3, _⟩ := loopTrace_locate K basecase_size 0 bs0 rk0 tr hloop b bs rk hm
    exact ⟨h1, h2, h3⟩

/-- Instance for C4: on the array of the specification. -/
theorem located_bucket_nonempty_witness :
    (∃ b bs rk, Event.locate b bs rk ∈ (threshold_select 4 1 [3, -7, 2, -2, 5, -1]
        (([3, -7, 2, -2, 5, -1] : List Int).length : Int) 2).trace) ∧
    ∀ b bs rk, Event.locate b bs rk ∈ (threshold_select 4 1 [3, -7, 2, -2, 5, -1]
        (([3, -7, 2, -2, 5, -1] : List Int).length : Int) 2).trace →
      0 ≤ b ∧ b < ((4 : Nat) : Int) ∧ 1 ≤ bs :=
  located_bucket_nonempty 4 1 [3, -7, 2, -2, 5, -1] 2 (by decide) (by decide) (by decide)
    (by decide) (by decide)

/-- C5: rank invariant of the driver: if `0 ≤ rank < size` on entry, then after the first pass
and after every loop iteration the re-based rank satisfies `0 ≤ rank < bucket_size`, and so do
the rank and size handed to the base-case selector or to the `std::nth_element` fallback. -/
theorem rank_invariant (K basecase_size : Nat) (V : List Int) (r : Int)
    (hK : 0 < K) (hK2 : K ≤ 256) (hV : V ≠ []) (hr0 : 0 ≤ r) (hr : r < V.length) :
    (∀ b bs rk, Event.locate b bs rk ∈ (threshold_select K basecase_size V V.length r).trace →
      0 ≤ rk ∧ rk < bs) ∧
    (∀ bs rk, Event.basecase_select bs rk ∈
        (threshold_select K basecase_size V V.length r).trace → 0 ≤ rk ∧ rk < bs) ∧
    (∀ bs rk, Event.nth_element bs rk ∈
        (threshold_select K basecase_size V V.length r).trace → 0 ≤ rk ∧ rk < bs) ∧
    ∃ e, (threshold_select K basecase_size V V.length r).trace.getLast? = some e ∧
      ((∃ bs rk, e = Event.basecase_select bs rk) ∨ (∃ bs rk, e = Event.nth_element bs rk)) := by
  have hpos : 0 < V.length := List.length_pos.mpr hV
  obtain ⟨v, b0, bs0, rk0, tr, hrun, _, hb0, hbK, hbs, _, hrk0, hrk, hloop⟩ :=
    threshold_select_spec K basecase_size V V.length r hK hK2 (by omega) (by simp) hr0 hr
  rw [hrun]
  have hfin := loopTrace_final K basecase_size 0 bs0 rk0 tr hloop hbs hrk0 hrk
  refine ⟨?_, ?_, ?_, ?_⟩
  · intro b bs rk hm
    simp only [List.mem_cons, Event.locate.injEq, false_or, reduceCtorEq] at hm
    rcases hm with ⟨rfl, rfl, rfl⟩ | hm
    · exact ⟨hrk0, hrk⟩
    · obtain ⟨_, _, _, h4, h5⟩ := loopTrace_locate K basecase_size 0 bs0 rk0 tr hloop b bs rk hm
      exact ⟨h4, h5⟩
  · intro bs rk hm
    simp only [List.mem_cons, false_or, reduceCtorEq] at hm
    exact (hfin bs rk (Or.inr hm)).2
  · intro bs rk hm
    simp only [List.mem_cons, false_or, reduceCtorEq] at hm
    exact (hfin bs rk (Or.inl hm)).2
  · have hne := loopTrace_ne_nil _ _ _ _ _ _ hloop
    have hlast : (Event.ssss_count (V.length : Int) :: Event.locate b0 bs0 rk0 ::
        Event.ssss_filter (V.length : Int) b0 :: tr).getLast? = tr.getLast? := by
      rw [List.getLast?_cons_cons, List.getLast?_cons_cons]
      cases tr with
      | nil => exact absurd rfl hne
      | cons e tr => rw [List.getLast?_cons_cons]
    show ∃ e, (Event.ssss_count (V.length : Int) :: Event.locate b0 bs0 rk0 ::
        Event.ssss_filter (V.length : Int) b0 :: tr).getLast? = some e ∧ _
    rw [hlast]
    rcases loopTrace_passes K basecase_size 0 bs0 rk0 tr hloop (by omega) with
      ⟨⟨bs, rk, h⟩, _⟩ | ⟨⟨bs, rk, h, _⟩, _⟩
    · exact ⟨_, h, Or.inr ⟨bs, rk, rfl⟩⟩
    · exact ⟨_, h, Or.inl ⟨bs, rk, rfl⟩⟩

/-- Instance for C5: on the array of the specification. -/
theorem rank_invariant_witness :
    (∀ b bs rk, Event.locate b bs rk ∈ (threshold_select 4 1 [3, -7, 2, -2, 5, -1]
        (([3, -7, 2, -2, 5, -1] : List Int).length : Int) 2).trace → 0 ≤ rk ∧ rk < bs) ∧
    (∀ bs rk, Event.basecase_select bs rk ∈ (threshold_select 4 1 [3, -7, 2, -2, 5, -1]
        (([3, -7, 2, -2, 5, -1] : List Int).length : Int) 2).trace → 0 ≤ rk ∧ rk < bs) ∧
    (∀ bs rk, Event.nth_element bs rk ∈ (threshold_select 4 1 [3, -7, 2, -2, 5, -1]
        (([3, -7, 2, -2, 5, -1] : List Int).length : Int) 2).trace → 0 ≤ rk ∧ rk < bs) ∧
    ∃ e, (threshold_select 4 1 [3, -7, 2, -2, 5, -1]
        (([3, -7, 2, -2, 5, -1] : List Int).length : Int) 2).trace.getLast? = some e ∧
      ((∃ bs rk, e = Event.basecase_select bs rk) ∨ (∃ bs rk, e = Event.nth_element bs rk)) :=
  rank_invariant 4 1 [3, -7, 2, -2, 5, -1] 2 (by decide) (by decide) (by decide)
    (by decide) (by decide)

/-- C9: for every array whose size equals the base-case threshold and every valid rank,
`threshold_select` makes the first pass, skips the loop (its body runs zero times) and goes
straight to the base-case selector. -/
theorem basecase_size_skips_loop (K basecase_size : Nat) (V : List Int) (r : Int)
    (hK : 0 < K) (hK2 : K ≤ 256) (hV : V ≠ []) (hsize : V.length = basecase_size)
    (hr0 : 0 ≤ r) (hr : r < V.length) :
    ∃ bucket bucket_size rank v,
      threshold_select K basecase_size V V.length r =
        ⟨[Event.ssss_count V.length, Event.locate bucket bucket_size rank,
          Event.ssss_filter V.length bucket, Event.basecase_select bucket_size rank],
          Outcome.value v⟩ := by
  have hpos : 0 < V.length := List.length_pos.mpr hV
  obtain ⟨v, b0, bs0, rk0, tr, hrun, _, _, _, _, hle, _, _, hloop⟩ :=
    threshold_select_spec K basecase_size V V.length r hK hK2 (by omega) (by simp) hr0 hr
  have htr := loopTrace_small K basecase_size 0 bs0 rk0 tr hloop (by omega)
  subst htr
  exact ⟨b0, bs0, rk0, v, hrun⟩

/-- Instance for C9: on an array of six entries with a base-case threshold of six. -/
theorem basecase_size_skips_loop_witness :
    ∃ bucket bucket_size rank v,
      threshold_select 4 6 [3, -7, 2, -2, 5, -1]
          (([3, -7, 2, -2, 5, -1] : List Int).length : Int) 1 =
        ⟨[Event.ssss_count (([3, -7, 2, -2, 5, -1] : List Int).length : Int),
          Event.locate bucket bucket_size rank,
          Event.ssss_filter (([3, -7, 2, -2, 5, -1] : List Int).length : Int) bucket,
          Event.basecase_select bucket_size rank], Outcome.value v⟩ :=
  basecase_size_skips_loop 4 6 [3, -7, 2, -2, 5, -1] 1 (by decide) (by decide) (by decide)
    (by decide) (by decide) (by decide)

theorem sortKeys_head_le (l : List Int) (m : Int) (h : (sortKeys l).get? 0 = some m) :
    m ∈ l ∧ ∀ k ∈ l, m ≤ k := by
  have hs := sortKeys_sorted l
  have hmem : ∀ x, x ∈ sortKeys l ↔ x ∈ l := fun x => mem_sortKeys
  cases hsl : sortKeys l with
  | nil => rw [hsl] at h; simp at h
  | cons a t =>
    rw [hsl] at h hs
    simp only [List.get?_cons_zero, Option.some.injEq] at h
    subst h
    refine ⟨(hmem a).mp (by rw [hsl]; exact List.mem_cons_self _ _), ?_⟩
    intro k hk
    have hk' : k ∈ a :: t := by rw [← hsl]; exact (hmem k).mpr hk
    rcases List.mem_cons.mp hk' with rfl | hk''
    · exact le_refl _
    · exact List.rel_of_sorted_cons hs k hk''

theorem sortKeys_last_ge (l : List Int) (m : Int)
    (h : (sortKeys l).get? (l.length - 1) = some m) : m ∈ l ∧ ∀ k ∈ l, k ≤ m := by
  have hs := sortKeys_sorted l
  have hlen := sortKeys_length l
  rw [List.get?_eq_getElem?] at h
  obtain ⟨hi, hm⟩ := List.getElem?_eq_some_iff.mp h
  refine ⟨mem_sortKeys.mp (hm ▸ List.getElem_mem _), ?_⟩
  intro k hk
  obtain ⟨j, hj, hkj⟩ := List.getElem_of_mem (mem_sortKeys.mpr hk)
  rw [← hkj, ← hm]
  rcases Nat.eq_or_lt_of_le (show j ≤ l.length - 1 by omega) with h1 | h1
  · subst h1; exact le_refl _
  · exact List.pairwise_iff_getElem.mp hs j (l.length - 1) hj hi h1

/-- C10: for every non-empty array `V`, rank `0` returns the minimum magnitude of `V` and rank
`|V| - 1` returns the maximum magnitude of `V`. -/
theorem threshold_select_min_max (K basecase_size : Nat) (V : List Int)
    (hK : 0 < K) (hK2 : K ≤ 256) (hV : V ≠ []) :
    (∃ m, (threshold_select K basecase_size V V.length 0).outcome = Outcome.value m ∧
      m ∈ V.map key ∧ ∀ k ∈ V.map key, m ≤ k) ∧
    (∃ m, (threshold_select K basecase_size V V.length ((V.length : Int) - 1)).outcome =
        Outcome.value m ∧ m ∈ V.map key ∧ ∀ k ∈ V.map key, k ≤ m) := by
  have hpos : 0 < V.length := List.length_pos.mpr hV
  refine ⟨?_, ?_⟩
  · obtain ⟨v, _, _, _, _, hrun, hv, _⟩ := threshold_select_spec K basecase_size V V.length 0
      hK hK2 (by omega) (by simp) (le_refl _) (by omega)
    rw [take_length_cast] at hv
    exact ⟨v, by rw [hrun], sortKeys_head_le _ v hv⟩
  · obtain ⟨v, _, _, _, _, hrun, hv, _⟩ := threshold_select_spec K basecase_size V V.length
      ((V.length : Int) - 1) hK hK2 (by omega) (by simp) (by omega) (by omega)
    rw [take_length_cast] at hv
    have e : ((V.length : Int) - 1).toNat = (V.map key).length - 1 := by
      rw [List.length_map]; omega
    rw [e] at hv
    exact ⟨v, by rw [hrun], sortKeys_last_ge _ v hv⟩

/-- Instance for C10: on the array of the specification. -/
theorem threshold_select_min_max_witness :
    (∃ m, (threshold_select 256 1024 [3, -7, 2, -2, 5, -1]
        (([3, -7, 2, -2, 5, -1] : List Int).length : Int) 0).outcome = Outcome.value m ∧
      m ∈ ([3, -7, 2, -2, 5, -1] : List Int).map key ∧
      ∀ k ∈ ([3, -7, 2, -2, 5, -1] : List Int).map key, m ≤ k) ∧
    (∃ m, (threshold_select 256 1024 [3, -7, 2, -2, 5, -1]
        (([3, -7, 2, -2, 5, -1] : List Int).length : Int)
        ((([3, -7, 2, -2, 5, -1] : List Int).length : Int) - 1)).outcome = Outcome.value m ∧
      m ∈ ([3, -7, 2, -2, 5, -1] : List Int).map key ∧
      ∀ k ∈ ([3, -7, 2, -2, 5, -1] : List Int).map key, k ≤ m) :=
  threshold_select_min_max 256 1024 [3, -7, 2, -2, 5, -1] (by omega) (by omega) (by decide)

/-! ## Arrays of equal magnitudes -/

theorem countP_lt_of_all_eq (o : List Nat) (t j : Nat) (h : ∀ x ∈ o, x = t) :
    o.countP (fun x => decide (x < j)) = if t < j then o.length else 0 := by
  by_cases htj : t < j
  · rw [if_pos htj, List.countP_eq_length]
    intro x hx
    rw [h x hx]
    simpa using htj
  · rw [if_neg htj, List.countP_eq_zero]
    intro x hx
    rw [h x hx]
    simpa using htj

/-- One pass on a working array whose keys all equal `m`: every key lands in the last bucket,
which is the one chosen, so the pass keeps the whole working array and the rank. -/
theorem refine_pass_degenerate (K : Nat) (values : List Int) (size rank m : Int)
    (hK : 0 < K) (hK2 : K ≤ 256) (hs : 1 ≤ size) (hlen : size.toNat ≤ values.length)
    (hr0 : 0 ≤ rank) (hr : rank < size) (hall : ∀ v ∈ values.take size.toNat, key v = m) :
    ∃ c, ssss_count K values size = some c ∧
      locate_bucket K c.total_counts rank = (K : Int) - 1 ∧
      readAt c.total_counts ((K : Int) - 1) = some 0 ∧
      readAt c.total_counts ((K : Int) - 1 + 1) = some size ∧
      ∀ buf : List Int, size.toNat ≤ buf.length →
        ssss_filter values size c.oracles c.partial_counts ((K : Int) - 1) buf =
          some ((values.take size.toNat).map key ++ buf.drop size.toNat) := by
  obtain ⟨tree, hsorted, htl, hmem, hc⟩ := ssss_count_spec K values size hK hK2 hs hlen
  have hol := oraclesOf_length tree values size hlen
  have hB : (List.range (K + 1)).map (fun j =>
      (((oraclesOf tree values size).countP (fun x => decide (x < j)) : Nat) : Int)) =
      boundaries K (oraclesOf tree values size) := rfl
  rw [hB] at hc
  have htree : ∀ s ∈ tree, s ≤ m := by
    intro s hs'
    obtain ⟨v, hv, rfl⟩ := List.mem_map.mp (hmem s hs')
    exact le_of_eq (hall v hv)
  have hcls : ∀ v ∈ values.take size.toNat, classify tree (key v) = K - 1 := by
    intro v hv
    rw [hall v hv, classify_last tree hsorted m htree, htl]
  have horc : ∀ x ∈ oraclesOf tree values size, x = K - 1 := by
    intro x hx
    obtain ⟨v, hv, rfl⟩ := List.mem_map.mp hx
    exact hcls v hv
  have hBj : ∀ j, j < K + 1 → (boundaries K (oraclesOf tree values size)).getD j 0 =
      if K - 1 < j then size else 0 := by
    intro j hj
    rw [boundaries_getD K _ j hj, countP_lt_of_all_eq _ (K - 1) j horc, hol]
    split
    · simp; omega
    · simp
  obtain ⟨hb0, hbK, hlo, hhi, _⟩ := locate_bucket_spec K (boundaries K (oraclesOf tree values size))
    rank (boundaries_nonDecreasing K _) (boundaries_zero K _) hr0
    (by rw [hBj K (by omega), if_pos (by omega)]; exact hr)
  have hbucket : locate_bucket K (boundaries K (oraclesOf tree values size)) rank =
      (K : Int) - 1 := by
    by_contra hcon
    rw [hBj _ (by omega), if_neg (by omega)] at hhi
    omega
  have hcomp : compacted tree ((K : Int) - 1) (values.take size.toNat) =
      (values.take size.toNat).map key := by
    unfold compacted
    rw [List.filter_eq_self.mpr]
    intro v hv
    rw [hcls v hv]
    simp only [decide_eq_true_eq]
    omega
  refine ⟨_, hc, hbucket, ?_, ?_, ?_⟩
  · show readAt (boundaries K (oraclesOf tree values size)) _ = _
    rw [readAt_eq_getD _ _ (by omega) (by rw [boundaries_length]; omega), hBj _ (by omega),
      if_neg (by omega)]
  · show readAt (boundaries K (oraclesOf tree values size)) _ = _
    rw [readAt_eq_getD _ _ (by omega) (by rw [boundaries_length]; omega), hBj _ (by omega),
      if_pos (by omega)]
  · intro buf hbuf
    show ssss_filter values size (oraclesOf tree values size) _ _ buf = _
    have hl : (compacted tree ((K : Int) - 1) (values.take size.toNat)).length = size.toNat := by
      rw [hcomp, List.length_map, List.length_take]; omega
    have := ssss_filter_spec K tree values size ((K : Int) - 1) buf (by omega) hlen (by omega)
      (by omega) (by omega)
    rw [hl, hcomp] at this
    exact this

theorem sortKeys_get?_of_all_eq (l : List Int) (m : Int) (i : Nat) (h : ∀ x ∈ l, x = m)
    (hi : i < l.length) : (sortKeys l).get? i = some m := by
  have hl : i < (sortKeys l).length := by rw [sortKeys_length]; exact hi
  rw [List.get?_eq_get hl]
  congr 1
  exact h _ (mem_sortKeys.mp (List.get_mem _ _ _))

/-- The loop on a working set of equal keys above the base-case size: the working set never
shrinks, the counter runs to its bound and the fallback returns the key. -/
theorem select_loop_degenerate (K basecase_size : Nat) (hK : 0 < K) (hK2 : K ≤ 256)
    (m bs rank : Int) (hm : 0 ≤ m) (hgt : bs > basecase_size) (hbs : 1 ≤ bs)
    (hr0 : 0 ≤ rank) (hr : rank < bs) :
    ∀ (fuel k : Nat) (step : Int) (out inb : List Int),
      step + k = 6 → 1 ≤ k → k ≤ fuel →
      bs.toNat ≤ out.length → bs.toNat ≤ inb.length →
      (∀ x ∈ out.take bs.toNat, x = m) →
      select_loop K basecase_size fuel step out inb bs rank =
        ⟨(List.replicate k (stuck_pass bs ((K : Int) - 1) rank)).flatten ++
          [Event.nth_element bs rank], Outcome.value m⟩ := by
  intro fuel
  induction fuel with
  | zero => intro k step out inb _ h1 h2; omega
  | succ fuel ih =>
    intro k step out inb hk hk1 hkf hout hinb hall
    have hkey : ∀ v ∈ out.take bs.toNat, key v = m := by
      intro v hv
      rw [hall v hv, key_of_nonneg m hm]
    obtain ⟨c, hc, hbucket, hlo, hhi, hfilter⟩ :=
      refine_pass_degenerate K out bs rank m hK hK2 hbs hout hr0 hr hkey
    have hf := hfilter inb hinb
    have hmap : (out.take bs.toNat).map key = out.take bs.toNat :=
      map_key_of_nonneg _ (fun x hx => by rw [hall x hx]; exact hm)
    rw [hmap] at hf
    have htake : (out.take bs.toNat ++ inb.drop bs.toNat).take bs.toNat = out.take bs.toNat :=
      List.take_left' (by rw [List.length_take]; omega)
    unfold select_loop
    rw [if_pos hgt]
    simp only [hc, hbucket, hf, hlo, hhi, sub_zero]
    by_cases hstep : step + 1 > 5
    · have hk' : k = 1 := by omega
      subst hk'
      rw [if_pos hstep]
      simp only [Run.after, nth_element, List.length_append, List.length_take, List.length_drop]
      rw [if_neg (by omega), htake, readAt_sort _ _ hr0,
        sortKeys_get?_of_all_eq _ m _ hall (by rw [List.length_take]; omega)]
      simp [stuck_pass, Outcome.ofOption, fast_abs_result]
    · rw [if_neg hstep]
      obtain ⟨k', rfl⟩ : ∃ k', k = k' + 1 := ⟨k - 1, by omega⟩
      rw [ih k' (step + 1) _ out (by push_cast at hk; omega) (by omega) (by omega)
        (by rw [List.length_append, List.length_take, List.length_drop]; omega) hout
        (by rw [htake]; exact hall)]
      simp [Run.after, stuck_pass, List.replicate_succ]

/-- C8: degenerate input: for every non-empty array whose entries all have the same magnitude
`m` and every valid rank, `threshold_select` terminates and returns `m`; when the array is
larger than the base-case threshold it does so through the bounded-iteration path: after the
first pass the loop body runs six times on the unchanged working set and the fallback
`std::nth_element` is run. -/
theorem degenerate_input (K basecase_size : Nat) (V : List Int) (m r : Int)
    (hK : 0 < K) (hK2 : K ≤ 256) (hV : V ≠ []) (hall : ∀ v ∈ V, key v = m)
    (hr0 : 0 ≤ r) (hr : r < V.length) :
    (threshold_select K basecase_size V V.length r).outcome = Outcome.value m ∧
    ((basecase_size : Int) < V.length →
      (threshold_select K basecase_size V V.length r).trace =
        Event.ssss_count V.length :: Event.locate ((K : Int) - 1) V.length r ::
          Event.ssss_filter V.length ((K : Int) - 1) ::
            ((List.replicate 6 (stuck_pass V.length ((K : Int) - 1) r)).flatten ++
              [Event.nth_element V.length r])) := by
  have hpos : 0 < V.length := List.length_pos.mpr hV
  refine ⟨?_, ?_⟩
  · obtain ⟨v, _, _, _, _, hrun, hv, _⟩ := threshold_select_spec K basecase_size V V.length r
      hK hK2 (by omega) (by simp) hr0 hr
    rw [take_length_cast] at hv
    have hmem : v ∈ sortKeys (V.map key) := List.get?_mem hv
    obtain ⟨x, hx, rfl⟩ := List.mem_map.mp (mem_sortKeys.mp hmem)
    rw [hrun, hall x hx]
  · intro hgt
    have hm : 0 ≤ m := by
      obtain ⟨x, hx⟩ := List.exists_mem_of_ne_nil V hV
      rw [← hall x hx]; exact key_nonneg x
    obtain ⟨c, hc, hbucket, hlo, hhi, hfilter⟩ :=
      refine_pass_degenerate K V V.length r m hK hK2 (by omega) (by simp) hr0 hr
        (by rw [take_length_cast]; exact hall)
    have hf := hfilter (List.replicate ((V.length : Int)).toNat 0) (by simp)
    rw [take_length_cast] at hf
    have hkeys : ∀ x ∈ V.map key, x = m := by
      intro x hx
      obtain ⟨y, hy, rfl⟩ := List.mem_map.mp hx
      exact hall y hy
    have hloop := select_loop_degenerate K basecase_size hK hK2 m V.length r hm
      (by omega) (by omega) hr0 hr 6 6 0
      (V.map key ++ (List.replicate ((V.length : Int)).toNat 0).drop ((V.length : Int)).toNat)
      (List.replicate ((V.length : Int)).toNat 0) (by norm_num) (by omega) (by omega)
      (by simp) (by simp)
      (by
        intro x hx
        have : (V.map key ++ (List.replicate ((V.length : Int)).toNat 0).drop
            ((V.length : Int)).toNat).take ((V.length : Int)).toNat = V.map key :=
          List.take_left' (by simp)
        rw [this] at hx
        exact hkeys x hx)
    unfold threshold_select
    simp only [hc, hbucket, hlo, hhi, sub_zero, hf, hloop, Run.after]
    simp

/-- Instance for C8: on four entries of magnitude `2` with a base-case threshold of `1`. -/
theorem degenerate_input_witness :
    (threshold_select 4 1 [2, -2, 2, -2] (([2, -2, 2, -2] : List Int).length : Int) 1).outcome =
      Outcome.value 2 ∧
    (((1 : Nat) : Int) < (([2, -2, 2, -2] : List Int).length : Int) →
      (threshold_select 4 1 [2, -2, 2, -2] (([2, -2, 2, -2] : List Int).length : Int) 1).trace =
        Event.ssss_count (([2, -2, 2, -2] : List Int).length : Int) ::
          Event.locate (((4 : Nat) : Int) - 1) (([2, -2, 2, -2] : List Int).length : Int) 1 ::
          Event.ssss_filter (([2, -2, 2, -2] : List Int).length : Int) (((4 : Nat) : Int) - 1) ::
            ((List.replicate 6 (stuck_pass (([2, -2, 2, -2] : List Int).length : Int)
                (((4 : Nat) : Int) - 1) 1)).flatten ++
              [Event.nth_element (([2, -2, 2, -2] : List Int).length : Int) 1])) :=
  degenerate_input 4 1 [2, -2, 2, -2] 2 1 (by decide) (by decide) (by decide) (by decide)
    (by decide) (by decide)

/-! ## Inputs outside the contract -/

theorem locate_bucket_rank_neg (K : Nat) (B : List Int) (rank : Int)
    (hmono : NonDecreasing B (K + 1)) (h0 : B.getD 0 0 = 0) (hr : rank < 0) :
    locate_bucket K B rank = -1 := by
  obtain ⟨_, h2, _⟩ := upper_bound_spec B (K + 1) rank hmono
  have : upper_bound B (K + 1) rank = 0 := by
    by_contra hcon
    have := h2 0 (by omega)
    omega
  simp [locate_bucket, this]

theorem locate_bucket_rank_large (K : Nat) (B : List Int) (rank : Int)
    (hmono : NonDecreasing B (K + 1)) (hr : B.getD K 0 ≤ rank) :
    locate_bucket K B rank = K := by
  obtain ⟨h1, _, h3⟩ := upper_bound_spec B (K + 1) rank hmono
  have : upper_bound B (K + 1) rank = K + 1 := by
    by_contra hcon
    have hlt : upper_bound B (K + 1) rank < K + 1 := by omega
    have := h3 _ (le_refl _) hlt
    have := hmono (upper_bound B (K + 1) rank) K (by omega) (by omega)
    omega
  simp [locate_bucket, this]

theorem readAt_neg (a : List Int) (i : Int) (h : i < 0) : readAt a i = none := by
  simp [readAt]; omega

theorem readAt_length (a : List Int) (i : Int) (h : (a.length : Int) ≤ i) :
    readAt a i = none := by
  simp only [readAt]
  split
  · rw [List.get?_eq_getElem?, List.getElem?_eq_none]; omega
  · rfl

theorem ssss_count_nil (K : Nat) (hK : 0 < K) (size : Int) : ssss_count K [] size = none := by
  obtain ⟨k, rfl⟩ : ∃ k, K = k + 1 := ⟨K - 1, by omega⟩
  simp [ssss_count, build_searchtree, List.range_succ_eq_map, readAll]

/-- A rank outside `[0, size)` on a non-empty array: after `ssss_count` the rank location reads
the boundaries out of bounds. -/
theorem threshold_select_bad_rank (K basecase_size : Nat) (V : List Int) (rank : Int)
    (hK : 0 < K) (hK2 : K ≤ 256) (hV : V ≠ []) (hr : rank < 0 ∨ (V.length : Int) ≤ rank) :
    threshold_select K basecase_size V V.length rank =
      ⟨[Event.ssss_count V.length], Outcome.undefined⟩ := by
  have hpos : 0 < V.length := List.length_pos.mpr hV
  obtain ⟨tree, hsorted, htl, _, hc⟩ :=
    ssss_count_spec K V V.length hK hK2 (by omega) (by simp)
  have hol := oraclesOf_length tree V V.length (by simp)
  have hB : (List.range (K + 1)).map (fun j =>
      (((oraclesOf tree V V.length).countP (fun x => decide (x < j)) : Nat) : Int)) =
      boundaries K (oraclesOf tree V V.length) := rfl
  rw [hB] at hc
  have hlast := boundaries_last K (oraclesOf tree V V.length)
    (oraclesOf_lt K tree V V.length hK hsorted htl)
  unfold threshold_select
  simp only [hc, Run.after]
  rcases hr with hr | hr
  · rw [locate_bucket_rank_neg K _ rank (boundaries_nonDecreasing K _) (boundaries_zero K _) hr,
      readAt_neg _ (-1) (by omega)]
    split <;> simp_all
  · rw [locate_bucket_rank_large K _ rank (boundaries_nonDecreasing K _)
      (by rw [hlast, hol]; simpa using hr),
      readAt_length _ ((K : Int) + 1) (by rw [boundaries_length]; push_cast; omega)]
    rfl

/-- Counterexample to C6 as stated: on the empty array (size `0`, rank `0`)
`threshold_select` does call `ssss_count`, and the run ends in an out-of-bounds access, not in
a reported failure; for a rank beyond the size it calls `ssss_count` as well. -/
theorem contract_violation_counterexample :
    threshold_select 256 1024 [] 0 0 = ⟨[Event.ssss_count 0], Outcome.undefined⟩ ∧
    Event.ssss_count 1 ∈ (threshold_select 4 2 [5] 1 1).trace := by
  decide

/-- C6 as amended: `threshold_select` validates nothing: for every size and rank its first
step is the call of `ssss_count`; on an empty array, and on a non-empty array with a rank
outside `[0, size)`, the run makes that call and then ends in undefined behaviour (an
out-of-bounds access), and no outcome of the function is a reported failure. -/
theorem no_validation_before_count (K basecase_size : Nat) (V : List Int) (size rank : Int) :
    (∃ tr, (threshold_select K basecase_size V size rank).trace = Event.ssss_count size :: tr) ∧
    (0 < K → K ≤ 256 → size = V.length → (size = 0 ∨ rank < 0 ∨ size ≤ rank) →
      threshold_select K basecase_size V size rank =
        ⟨[Event.ssss_count size], Outcome.undefined⟩) := by
  refine ⟨⟨_, rfl⟩, ?_⟩
  intro hK hK2 hsize hbad
  subst hsize
  by_cases hV : V = []
  · subst hV
    unfold threshold_select
    simp [ssss_count_nil K hK, Run.after]
  · have hpos : 0 < V.length := List.length_pos.mpr hV
    exact threshold_select_bad_rank K basecase_size V rank hK hK2 hV (by omega)

/-- Instance for C6 as amended: on a one-entry array and rank `7`. -/
theorem no_validation_before_count_witness :
    threshold_select 4 2 [5] 1 7 = ⟨[Event.ssss_count 1], Outcome.undefined⟩ :=
  (no_validation_before_count 4 2 [5] 1 7).2 (by decide) (by decide) (by decide) (by decide)

/-- Counterexample to C7 as stated: with two buckets and a base-case threshold of `1`, the
descending array `[8, 7, ..., 1]` and rank `0` lose one entry per pass; the sixth loop pass
leaves a bucket of size `1`, within the base-case threshold, and the result is still produced
by the fallback `std::nth_element`, not by the base-case selector. -/
theorem fallback_on_small_bucket_counterexample :
    threshold_select 2 1 [8, 7, 6, 5, 4, 3, 2, 1] 8 0 =
      ⟨[Event.ssss_count 8, Event.locate 0 7 0, Event.ssss_filter 8 0,
        Event.ssss_count 7, Event.ssss_filter 7 0, Event.locate 0 6 0,
        Event.ssss_count 6, Event.ssss_filter 6 0, Event.locate 0 5 0,
        Event.ssss_count 5, Event.ssss_filter 5 0, Event.locate 0 4 0,
        Event.ssss_count 4, Event.ssss_filter 4 0, Event.locate 0 3 0,
        Event.ssss_count 3, Event.ssss_filter 3 0, Event.locate 0 2 0,
        Event.ssss_count 2, Event.ssss_filter 2 0, Event.locate 0 1 0,
        Event.nth_element 1 0], Outcome.value 1⟩ ∧
    ¬ ((1 : Int) > ((1 : Nat) : Int)) := by
  decide

/-- C7 as amended: on a valid input the loop body runs at most six times (at most seven calls
of `ssss_count`); the driver ends in the fallback `std::nth_element` exactly when the loop body
has run six times, whatever bucket size the sixth pass leaves, and it ends in the base-case
selector, on a bucket within the base-case threshold, exactly when the loop body has run
fewer than six times. -/
theorem fallback_iff_six_passes (K basecase_size : Nat) (V : List Int) (r : Int)
    (hK : 0 < K) (hK2 : K ≤ 256) (hV : V ≠ []) (hr0 : 0 ≤ r) (hr : r < V.length) :
    (threshold_select K basecase_size V V.length r).trace.countP Event.isCount ≤ 7 ∧
    ((∃ bs rk, (threshold_select K basecase_size V V.length r).trace.getLast? =
        some (Event.nth_element bs rk)) ↔
      (threshold_select K basecase_size V V.length r).trace.countP Event.isCount = 7) ∧
    ((∃ bs rk, (threshold_select K basecase_size V V.length r).trace.getLast? =
        some (Event.basecase_select bs rk) ∧ bs ≤ basecase_size) ↔
      (threshold_select K basecase_size V V.length r).trace.countP Event.isCount < 7) := by
  have hpos : 0 < V.length := List.length_pos.mpr hV
  obtain ⟨v, b0, bs0, rk0, tr, hrun, _, _, _, _, _, _, _, hloop⟩ :=
    threshold_select_spec K basecase_size V V.length r hK hK2 (by omega) (by simp) hr0 hr
  rw [hrun]
  have hne := loopTrace_ne_nil _ _ _ _ _ _ hloop
  have hlast : (Event.ssss_count (V.length : Int) :: Event.locate b0 bs0 rk0 ::
      Event.ssss_filter (V.length : Int) b0 :: tr).getLast? = tr.getLast? := by
    rw [List.getLast?_cons_cons, List.getLast?_cons_cons]
    cases tr with
    | nil => exact absurd rfl hne
    | cons e tr => rw [List.getLast?_cons_cons]
  have hcount : (Event.ssss_count (V.length : Int) :: Event.locate b0 bs0 rk0 ::
      Event.ssss_filter (V.length : Int) b0 :: tr).countP Event.isCount =
      tr.countP Event.isCount + 1 := by
    simp [Event.isCount, List.countP_cons]
  simp only [hlast, hcount]
  rcases loopTrace_passes K basecase_size 0 bs0 rk0 tr hloop (by omega) with
    ⟨⟨bs, rk, h1⟩, h2⟩ | ⟨⟨bs, rk, h1, h1'⟩, h2⟩
  · refine ⟨by omega, ⟨fun _ => by omega, fun _ => ⟨bs, rk, h1⟩⟩, ⟨?_, fun h => by omega⟩⟩
    rintro ⟨bs', rk', h3, _⟩
    rw [h1] at h3
    cases h3
  · refine ⟨by omega, ⟨?_, fun h => by omega⟩, ⟨fun _ => by omega, fun _ => ⟨bs, rk, h1, h1'⟩⟩⟩
    rintro ⟨bs', rk', h3⟩
    rw [h1] at h3
    cases h3

/-- Instance for C7 as amended: on the array of the specification. -/
theorem fallback_iff_six_passes_witness :
    (threshold_select 4 1 [3, -7, 2, -2, 5, -1]
      (([3, -7, 2, -2, 5, -1] : List Int).length : Int) 2).trace.countP Event.isCount ≤ 7 ∧
    ((∃ bs rk, (threshold_select 4 1 [3, -7, 2, -2, 5, -1]
        (([3, -7, 2, -2, 5, -1] : List Int).length : Int) 2).trace.getLast? =
          some (Event.nth_element bs rk)) ↔
      (threshold_select 4 1 [3, -7, 2, -2, 5, -1]
        (([3, -7, 2, -2, 5, -1] : List Int).length : Int) 2).trace.countP Event.isCount = 7) ∧
    ((∃ bs rk, (threshold_select 4 1 [3, -7, 2, -2, 5, -1]
        (([3, -7, 2, -2, 5, -1] : List Int).length : Int) 2).trace.getLast? =
          some (Event.basecase_select bs rk) ∧ bs ≤ ((1 : Nat) : Int)) ↔
      (threshold_select 4 1 [3, -7, 2, -2, 5, -1]
        (([3, -7, 2, -2, 5, -1] : List Int).length : Int) 2).trace.countP Event.isCount < 7) :=
  fallback_iff_six_passes 4 1 [3, -7, 2, -2, 5, -1] 2 (by decide) (by decide) (by decide)
    (by decide) (by decide)

/-! ## Claims on single passes -/

/-- C18: one refinement step preserves the answer: on a valid working array with valid rank
`r`, when `b` is the located bucket, `C` the bucket compacted by `ssss_filter` into the front of
the output buffer and `r' = r - boundary[b]`, the `r'`-th smallest key of `C` is the `r`-th
smallest key of the working array; hence the loop, started on a candidate buffer and running
rank that hold the requested order statistic, returns that order statistic. -/
theorem refinement_step_preserves_rank (K : Nat) (values : List Int) (size rank : Int)
    (hK : 0 < K) (hK2 : K ≤ 256) (hs : 1 ≤ size) (hlen : size.toNat ≤ values.length)
    (hr0 : 0 ≤ rank) (hr : rank < size) :
    (∃ c lo hi v, ssss_count K values size = some c ∧
      readAt c.total_counts (locate_bucket K c.total_counts rank) = some lo ∧
      readAt c.total_counts (locate_bucket K c.total_counts rank + 1) = some hi ∧
      (sortKeys ((values.take size.toNat).map key)).get? rank.toNat = some v ∧
      ∀ buf : List Int, (hi - lo).toNat ≤ buf.length →
        ∃ out, ssss_filter values size c.oracles c.partial_counts
            (locate_bucket K c.total_counts rank) buf = some out ∧
          (sortKeys (out.take (hi - lo).toNat)).get? (rank - lo).toNat = some v) ∧
    (∀ (basecase_size fuel : Nat) (step : Int) (out inb : List Int) (bucket_size rank' v : Int),
      0 ≤ step → step ≤ 5 → 6 ≤ step + fuel → 1 ≤ bucket_size → 0 ≤ rank' →
      rank' < bucket_size → bucket_size.toNat ≤ out.length → bucket_size.toNat ≤ inb.length →
      (∀ x ∈ out.take bucket_size.toNat, 0 ≤ x) →
      (sortKeys (out.take bucket_size.toNat)).get? rank'.toNat = some v →
      (select_loop K basecase_size fuel step out inb bucket_size rank').outcome =
        Outcome.value v) := by
  refine ⟨?_, ?_⟩
  · obtain ⟨c, lo, hi, hc, hb0, hbK, hlo, hhi, hlo0, hrl, hrh, hle, hclen, hsel, hfilter⟩ :=
      refine_pass K values size rank hK hK2 hs hlen hr0 hr
    have hl : rank.toNat < (sortKeys ((values.take size.toNat).map key)).length := by
      rw [sortKeys_length, List.length_map, List.length_take]; omega
    refine ⟨c, lo, hi, _, hc, hlo, hhi, List.get?_eq_get hl, ?_⟩
    intro buf hbuf
    refine ⟨_, hfilter buf hbuf, ?_⟩
    rw [List.take_left' hclen, hsel]
    exact List.get?_eq_get hl
  · intro basecase_size fuel step out inb bucket_size rank' v h1 h2 h3 h4 h5 h6 h7 h8 h9 h10
    exact (select_loop_spec K basecase_size hK hK2 v fuel step out inb bucket_size rank'
      h1 h2 h3 h4 h5 h6 h7 h8 h9 h10).1

/-- Instance for C18: on the array of the specification with four buckets and rank `4`. -/
theorem refinement_step_preserves_rank_witness :
    ∃ c lo hi v, ssss_count 4 [3, -7, 2, -2, 5, -1] 6 = some c ∧
      readAt c.total_counts (locate_bucket 4 c.total_counts 4) = some lo ∧
      readAt c.total_counts (locate_bucket 4 c.total_counts 4 + 1) = some hi ∧
      (sortKeys ((([3, -7, 2, -2, 5, -1] : List Int).take (6 : Int).toNat).map key)).get?
        (4 : Int).toNat = some v ∧
      ∀ buf : List Int, (hi - lo).toNat ≤ buf.length →
        ∃ out, ssss_filter [3, -7, 2, -2, 5, -1] 6 c.oracles c.partial_counts
            (locate_bucket 4 c.total_counts 4) buf = some out ∧
          (sortKeys (out.take (hi - lo).toNat)).get? ((4 : Int) - lo).toNat = some v :=
  (refinement_step_preserves_rank 4 [3, -7, 2, -2, 5, -1] 6 4 (by decide) (by decide)
    (by decide) (by decide) (by decide) (by decide)).1

/-- C12: cumulative bucket boundaries produced by `ssss_count`: on a working array of `n ≥ 1`
entries the call succeeds, there is one oracle below `K` per entry, and the `K + 1` entries of
`total_counts` satisfy `boundary[0] = 0`, `boundary[K] = n`, are non-decreasing, and
`boundary[b]` is the number of entries whose oracle is below `b`, for every `b` in `[0, K]`. -/
theorem cumulative_boundaries (K : Nat) (values : List Int) (size : Int)
    (hK : 0 < K) (hK2 : K ≤ 256) (hs : 1 ≤ size) (hlen : size.toNat ≤ values.length) :
    ∃ c, ssss_count K values size = some c ∧
      c.oracles.length = size.toNat ∧ (∀ x ∈ c.oracles, x < K) ∧
      c.total_counts.length = K + 1 ∧
      c.total_counts.getD 0 0 = 0 ∧ c.total_counts.getD K 0 = size ∧
      NonDecreasing c.total_counts (K + 1) ∧
      ∀ b, b ≤ K →
        c.total_counts.getD b 0 = ((c.oracles.countP (fun x => decide (x < b)) : Nat) : Int) := by
  obtain ⟨tree, hsorted, htl, _, hc⟩ := ssss_count_spec K values size hK hK2 hs hlen
  have hol := oraclesOf_length tree values size hlen
  have hlt := oraclesOf_lt K tree values size hK hsorted htl
  refine ⟨_, hc, hol, hlt, ?_, ?_, ?_, ?_, ?_⟩
  · exact boundaries_length K _
  · exact boundaries_zero K _
  · show (boundaries K (oraclesOf tree values size)).getD K 0 = size
    rw [boundaries_last K _ hlt, hol]; omega
  · exact boundaries_nonDecreasing K _
  · intro b hb
    exact boundaries_getD K _ b (by omega)

/-- Instance for C12: on the array of the specification with four buckets. -/
theorem cumulative_boundaries_witness :
    ∃ c, ssss_count 4 [3, -7, 2, -2, 5, -1] 6 = some c ∧
      c.oracles.length = (6 : Int).toNat ∧ (∀ x ∈ c.oracles, x < 4) ∧
      c.total_counts.length = 4 + 1 ∧
      c.total_counts.getD 0 0 = 0 ∧ c.total_counts.getD 4 0 = 6 ∧
      NonDecreasing c.total_counts (4 + 1) ∧
      ∀ b, b ≤ 4 →
        c.total_counts.getD b 0 = ((c.oracles.countP (fun x => decide (x < b)) : Nat) : Int) :=
  cumulative_boundaries 4 [3, -7, 2, -2, 5, -1] 6 (by decide) (by decide) (by decide)
    (by decide)

/-! ## Arrays of one entry -/

theorem build_searchtree_singleton (K : Nat) (v : Int) :
    build_searchtree K [v] 1 = some (List.replicate (K - 1) (key v)) := by
  obtain ⟨tree, hb, _, htl, hmem⟩ := build_searchtree_spec K [v] 1 (le_refl _) (by simp)
  rw [hb]
  congr 1
  rw [List.eq_replicate_iff]
  refine ⟨htl, ?_⟩
  intro s hs
  simpa using hmem s hs

/-- C11: for every array of one entry `v`, `threshold_select` with rank `0` returns `|v|`:
the sample of the one-entry array is read in bounds (every splitter is `|v|`), the entry lands
in the last bucket, of size `1`, and, the base-case threshold being at least `1`, the loop is
skipped and the base case returns the magnitude. -/
theorem singleton_array (K basecase_size : Nat) (v : Int) (hK : 0 < K) (hK2 : K ≤ 256) :
    build_searchtree K [v] 1 = some (List.replicate (K - 1) (key v)) ∧
    (threshold_select K basecase_size [v] 1 0).outcome = Outcome.value (key v) ∧
    (1 ≤ basecase_size →
      threshold_select K basecase_size [v] 1 0 =
        ⟨[Event.ssss_count 1, Event.locate ((K : Int) - 1) 1 0,
          Event.ssss_filter 1 ((K : Int) - 1), Event.basecase_select 1 0],
          Outcome.value (key v)⟩) := by
  have hspec := threshold_select_spec K basecase_size [v] 1 0 hK hK2 (le_refl _) (by simp)
    (le_refl _) (by omega)
  obtain ⟨w, b0, bs0, rk0, tr, hrun, hw, _, _, _, hle, _, _, hloop⟩ := hspec
  have hwv : w = key v := by
    have : (sortKeys ((([v] : List Int).take (1 : Int).toNat).map key)).get? (0 : Int).toNat =
        some (key v) := by
      simp [sortKeys]
    rw [this] at hw
    exact (Option.some.inj hw).symm
  subst hwv
  refine ⟨build_searchtree_singleton K v, by rw [hrun], ?_⟩
  intro hbc
  obtain ⟨c, hc, hbucket, hlo, hhi, hfilter⟩ :=
    refine_pass_degenerate K [v] 1 0 (key v) hK hK2 (le_refl _) (by simp) (le_refl _)
      (by omega) (by simp)
  have hf := hfilter (List.replicate (1 : Int).toNat 0) (by simp)
  unfold threshold_select
  simp only [hc, hbucket, hlo, hhi, sub_zero, hf, Run.after]
  unfold select_loop
  rw [if_neg (by omega)]
  simp [basecase_select, readAt, sortKeys, Outcome.ofOption, fast_abs_result]
  rw [if_neg (by omega)]

/-- Instance for C11: on the one-entry array `[-7]`. -/
theorem singleton_array_witness :
    (threshold_select 256 1024 [-7] 1 0).outcome = Outcome.value 7 := by
  have h := (singleton_array 256 1024 (-7) (by omega) (by omega)).2.1
  have e : key (-7) = 7 := by decide
  rw [e] at h
  exact h

/-! ## Bounds on the number of passes -/

theorem countP_after (p : Event → Bool) (evs : List Event) (r : Run) :
    (Run.after evs r).trace.countP p = evs.countP p + r.trace.countP p := by
  simp [Run.after, List.countP_append]

theorem outcome_after (evs : List Event) (r : Run) : (Run.after evs r).outcome = r.outcome :=
  rfl

/-- For every state the loop is entered in, valid or not, with counter `step` it calls
`ssss_count` at most `6 - step` times and `ssss_filter` no more often than `ssss_count`. -/
theorem select_loop_count_le (K basecase_size : Nat) :
    ∀ (fuel : Nat) (step : Int) (out inb : List Int) (bucket_size rank : Int),
      0 ≤ step → step ≤ 5 →
      (((select_loop K basecase_size fuel step out inb bucket_size rank).trace.countP
          Event.isCount : Nat) : Int) ≤ 6 - step ∧
        (select_loop K basecase_size fuel step out inb bucket_size rank).trace.countP
          Event.isFilter ≤
        (select_loop K basecase_size fuel step out inb bucket_size rank).trace.countP
          Event.isCount := by
  intro fuel
  induction fuel with
  | zero =>
    intro step out inb bs rank h0 h5
    simp only [select_loop, List.countP_nil]
    exact ⟨by push_cast; omega, le_refl _⟩
  | succ fuel ih =>
    intro step out inb bs rank h0 h5
    unfold select_loop
    split
    · simp only [countP_after]
      split
      · simp [Event.isCount, Event.isFilter]; omega
      · simp only [countP_after]
        split
        · simp [Event.isCount, Event.isFilter]; omega
        · split
          · simp only [countP_after]
            split
            · simp [Event.isCount, Event.isFilter]; omega
            · rename_i tmp_out _ _ _ lo hi _ _ hstep
              obtain ⟨h1, h2⟩ := ih (step + 1) tmp_out out (hi - lo) (rank - lo) (by omega)
                (by omega)
              simp only [List.countP_cons, List.countP_nil, Event.isCount, Event.isFilter]
              constructor
              · push_cast; simp; omega
              · simp; omega
          · simp [Event.isCount, Event.isFilter]; omega
    · simp [Event.isCount, Event.isFilter]; omega

/-- With six rounds allotted from counter `0` on, the unrolling of the loop never ends without
an answer: the loop itself terminates, in every state, valid or not. -/
theorem select_loop_terminates (K basecase_size : Nat) :
    ∀ (fuel : Nat) (step : Int) (out inb : List Int) (bucket_size rank : Int),
      step ≤ 5 → 6 ≤ step + fuel →
      (select_loop K basecase_size fuel step out inb bucket_size rank).outcome ≠
        Outcome.out_of_fuel := by
  intro fuel
  induction fuel with
  | zero => intro step out inb bs rank h5 hf; omega
  | succ fuel ih =>
    intro step out inb bs rank h5 hf
    unfold select_loop
    split
    · simp only [outcome_after]
      split
      · simp
      · simp only [outcome_after]
        split
        · simp
        · split
          · simp only [outcome_after]
            split
            · simp only [Outcome.ofOption]
              split <;> simp
            · rename_i tmp_out _ _ _ lo hi _ _ hstep
              exact ih (step + 1) tmp_out out (hi - lo) (rank - lo) (by omega) (by omega)
          · simp
    · simp only [Outcome.ofOption]
      split <;> simp

theorem threshold_select_count_le (K basecase_size : Nat) (values : List Int)
    (size rank : Int) :
    (threshold_select K basecase_size values size rank).trace.countP Event.isCount ≤ 7 ∧
    (threshold_select K basecase_size values size rank).trace.countP Event.isFilter ≤ 7 ∧
    (threshold_select K basecase_size values size rank).outcome ≠ Outcome.out_of_fuel := by
  unfold threshold_select
  simp only [countP_after, outcome_after]
  split
  · simp [Event.isCount, Event.isFilter]
  · split
    · simp only [countP_after, outcome_after]
      split
      · simp [Event.isCount, Event.isFilter]
      · rename_i hi lo _ _ _ tmp_out _
        obtain ⟨h1, h2⟩ := select_loop_count_le K basecase_size 6 0 tmp_out
          (List.replicate (hi - lo).toNat 0) (hi - lo) (rank - lo) (le_refl _) (by omega)
        refine ⟨?_, ?_, select_loop_terminates K basecase_size 6 0 _ _ _ _ (by omega) (by omega)⟩
        · simp [Event.isCount] ; omega
        · simp [Event.isCount, Event.isFilter]; omega
    · simp [Event.isCount, Event.isFilter]

theorem loopTrace_final_count (K bc : Nat) (step bs rank : Int) (tr : List Event)
    (h : LoopTrace K bc step bs rank tr) :
    tr.countP Event.isFinal = 1 ∧ ∃ e, tr.getLast? = some e ∧ e.isFinal = true := by
  induction h with
  | base step bs rank h => exact ⟨by simp [Event.isFinal], _, rfl, rfl⟩
  | fallback step bs rank bucket bs2 rk2 h hstep hb0 hbK hsz hle hr0 hr =>
    exact ⟨by simp [Event.isFinal], _, rfl, rfl⟩
  | iter step bs rank bucket bs2 rk2 tr h hstep hb0 hbK hsz hle hr0 hr hrest ih =>
    have hne := loopTrace_ne_nil _ _ _ _ _ _ hrest
    have hlast : (Event.ssss_count bs :: Event.ssss_filter bs bucket ::
        Event.locate bucket bs2 rk2 :: tr).getLast? = tr.getLast? := by
      rw [List.getLast?_cons_cons, List.getLast?_cons_cons]
      cases tr with
      | nil => exact absurd rfl hne
      | cons e tr => rw [List.getLast?_cons_cons]
    rw [hlast]
    refine ⟨?_, ih.2⟩
    simp only [List.countP_cons, Event.isFinal]
    simpa using ih.1

theorem getLast?_cons3 (a b c : Event) (tr : List Event) (hne : tr ≠ []) :
    (a :: b :: c :: tr).getLast? = tr.getLast? := by
  rw [List.getLast?_cons_cons, List.getLast?_cons_cons]
  cases tr with
  | nil => exact absurd rfl hne
  | cons e tr => rw [List.getLast?_cons_cons]

/-- On an array whose entries all have the magnitude `m` and that is larger than the base-case
threshold, the body of the loop runs six times and the run ends in the fallback. -/
theorem stuck_run_passes (K basecase_size : Nat) (V : List Int) (m r : Int)
    (hK : 0 < K) (hK2 : K ≤ 256) (hV : V ≠ []) (hall : ∀ v ∈ V, key v = m)
    (hr0 : 0 ≤ r) (hr : r < V.length) (hgt : (basecase_size : Int) < V.length) :
    (threshold_select K basecase_size V V.length r).loop_passes = 6 ∧
    (threshold_select K basecase_size V V.length r).trace.getLast? =
      some (Event.nth_element V.length r) := by
  have hpos : 0 < V.length := List.length_pos.mpr hV
  have hm : 0 ≤ m := by
    obtain ⟨x, hx⟩ := List.exists_mem_of_ne_nil V hV
    rw [← hall x hx]; exact key_nonneg x
  obtain ⟨c, hc, hbucket, hlo, hhi, hfilter⟩ :=
    refine_pass_degenerate K V V.length r m hK hK2 (by omega) (by simp) hr0 hr
      (by rw [take_length_cast]; exact hall)
  have hf := hfilter (List.replicate ((V.length : Int)).toNat 0) (by simp)
  rw [take_length_cast] at hf
  have hkeys : ∀ x ∈ V.map key, x = m := by
    intro x hx
    obtain ⟨y, hy, rfl⟩ := List.mem_map.mp hx
    exact hall y hy
  have hloop := select_loop_degenerate K basecase_size hK hK2 m V.length r hm
    (by omega) (by omega) hr0 hr 6 6 0
    (V.map key ++ (List.replicate ((V.length : Int)).toNat 0).drop ((V.length : Int)).toNat)
    (List.replicate ((V.length : Int)).toNat 0) (by norm_num) (by omega) (by omega)
    (by simp) (by simp)
    (by
      intro x hx
      have : (V.map key ++ (List.replicate ((V.length : Int)).toNat 0).drop
          ((V.length : Int)).toNat).take ((V.length : Int)).toNat = V.map key :=
        List.take_left' (by simp)
      rw [this] at hx
      exact hkeys x hx)
  have htrace : (threshold_select K basecase_size V V.length r).trace =
      Event.ssss_count V.length :: Event.locate ((K : Int) - 1) V.length r ::
        Event.ssss_filter V.length ((K : Int) - 1) ::
          ((List.replicate 6 (stuck_pass V.length ((K : Int) - 1) r)).flatten ++
            [Event.nth_element V.length r]) := by
    unfold threshold_select
    simp only [hc, hbucket, hlo, hhi, sub_zero, hf, hloop, Run.after]
    simp
  unfold Run.loop_passes
  rw [htrace]
  refine ⟨?_, ?_⟩
  · simp [stuck_pass, Event.isCount, List.replicate, List.countP_cons]
  · simp [stuck_pass, List.replicate, List.getLast?_cons_cons]

/-- Counterexample to C19 as stated: on an array of equal magnitudes that is larger than the
base-case threshold the body of the loop is executed six times, not at most five: with `256`
buckets and a base-case threshold of `1024` on `1025` entries `2`, and with four buckets and a
base-case threshold of `1` on four entries of magnitude `2`. -/
theorem five_steps_counterexample :
    ¬ ((threshold_select 256 1024 (List.replicate 1025 2) 1025 0).loop_passes ≤ 5) ∧
    ¬ ((threshold_select 4 1 [2, -2, 2, -2] 4 1).loop_passes ≤ 5) ∧
    (threshold_select 4 1 [2, -2, 2, -2] 4 1).loop_passes = 6 ∧
    (threshold_select 4 1 [2, -2, 2, -2] 4 1).trace.getLast? = some (Event.nth_element 4 1) := by
  refine ⟨?_, by decide, by decide, by decide⟩
  have hgen : ∀ n : Nat, 1024 < n →
      (threshold_select 256 1024 (List.replicate n 2) (n : Int) 0).loop_passes = 6 := by
    intro n hn
    have hlen : (List.replicate n (2 : Int)).length = n := List.length_replicate n 2
    have h := (stuck_run_passes 256 1024 (List.replicate n 2) 2 0 (by omega) (by omega)
      (by
        intro h0
        rw [h0] at hlen
        simp at hlen
        omega)
      (by
        intro v hv
        rw [List.eq_of_mem_replicate hv]
        rfl) (le_refl _) (by rw [hlen]; omega) (by rw [hlen]; omega)).1
    rw [hlen] at h
    exact h
  have h := hgen 1025 (by omega)
  have e : ((1025 : Nat) : Int) = 1025 := rfl
  rw [e] at h
  rw [h]
  omega

/-- C19 as amended: for every input the body of the `while` loop (`ssss_count`, rank location,
`ssss_filter`) is executed at most six times, the counter being tested after the pass
(`step > 5`); on a valid input the run then ends in the base case or in the fallback to
`std::nth_element`, and it ends in the fallback exactly when the body has run six times. -/
theorem loop_body_at_most_six (K basecase_size : Nat) (values : List Int) (size rank : Int) :
    (threshold_select K basecase_size values size rank).loop_passes ≤ 6 ∧
    (0 < K → K ≤ 256 → values ≠ [] → size = values.length → 0 ≤ rank → rank < size →
      ((∃ bs rk, (threshold_select K basecase_size values size rank).trace.getLast? =
          some (Event.nth_element bs rk)) ∧
        (threshold_select K basecase_size values size rank).loop_passes = 6) ∨
      ((∃ bs rk, (threshold_select K basecase_size values size rank).trace.getLast? =
          some (Event.basecase_select bs rk)) ∧
        (threshold_select K basecase_size values size rank).loop_passes < 6)) := by
  refine ⟨?_, ?_⟩
  · have := (threshold_select_count_le K basecase_size values size rank).1
    unfold Run.loop_passes
    omega
  · intro hK hK2 hV hsize hr0 hr
    subst hsize
    have hpos : 0 < values.length := List.length_pos.mpr hV
    obtain ⟨v, b0, bs0, rk0, tr, hrun, _, _, _, _, _, _, _, hloop⟩ :=
      threshold_select_spec K basecase_size values values.length rank hK hK2 (by omega)
        (by simp) hr0 hr
    rw [hrun]
    have hne := loopTrace_ne_nil _ _ _ _ _ _ hloop
    have hcount : (Event.ssss_count (values.length : Int) :: Event.locate b0 bs0 rk0 ::
        Event.ssss_filter (values.length : Int) b0 :: tr).countP Event.isCount =
        tr.countP Event.isCount + 1 := by
      simp [Event.isCount, List.countP_cons]
    simp only [Run.loop_passes, getLast?_cons3 _ _ _ _ hne, hcount]
    rcases loopTrace_passes K basecase_size 0 bs0 rk0 tr hloop (by omega) with
      ⟨h1, h2⟩ | ⟨⟨bs, rk, h1, _⟩, h2⟩
    · left; exact ⟨h1, by omega⟩
    · right; exact ⟨⟨bs, rk, h1⟩, by omega⟩

/-- Instance for C19 as amended: on the array of the specification. -/
theorem loop_body_at_most_six_witness :
    (threshold_select 4 1 [3, -7, 2, -2, 5, -1] 6 2).loop_passes ≤ 6 :=
  (loop_body_at_most_six 4 1 [3, -7, 2, -2, 5, -1] 6 2).1

/-- C20: `threshold_select` terminates for every non-empty input and valid rank, whatever the
key distribution: it returns a value, it makes at most seven `ssss_count` and at most seven
`ssss_filter` passes (a constant that depends neither on the array size nor on the buckets),
and it ends in exactly one final selection, the base-case selector or the sequential fallback,
which is its last step; for every input whatsoever the same bound on the passes holds and the
bounded unrolling of the loop never runs out. -/
theorem threshold_select_terminates (K basecase_size : Nat) (V : List Int) (r : Int)
    (hK : 0 < K) (hK2 : K ≤ 256) (hV : V ≠ []) (hr0 : 0 ≤ r) (hr : r < V.length) :
    (∃ v, (threshold_select K basecase_size V V.length r).outcome = Outcome.value v) ∧
    (threshold_select K basecase_size V V.length r).trace.countP Event.isCount ≤ 7 ∧
    (threshold_select K basecase_size V V.length r).trace.countP Event.isFilter ≤ 7 ∧
    (threshold_select K basecase_size V V.length r).trace.countP Event.isFinal = 1 ∧
    (∃ e, (threshold_select K basecase_size V V.length r).trace.getLast? = some e ∧
      e.isFinal = true) ∧
    (∀ (values : List Int) (size rank : Int),
      (threshold_select K basecase_size values size rank).trace.countP Event.isCount ≤ 7 ∧
      (threshold_select K basecase_size values size rank).trace.countP Event.isFilter ≤ 7 ∧
      (threshold_select K basecase_size values size rank).outcome ≠ Outcome.out_of_fuel) := by
  have hpos : 0 < V.length := List.length_pos.mpr hV
  obtain ⟨v, b0, bs0, rk0, tr, hrun, _, _, _, _, _, _, _, hloop⟩ :=
    threshold_select_spec K basecase_size V V.length r hK hK2 (by omega) (by simp) hr0 hr
  have hgen := threshold_select_count_le K basecase_size V V.length r
  obtain ⟨hf1, hf2⟩ := loopTrace_final_count K basecase_size 0 bs0 rk0 tr hloop
  have hne := loopTrace_ne_nil _ _ _ _ _ _ hloop
  refine ⟨⟨v, by rw [hrun]⟩, hgen.1, hgen.2.1, ?_, ?_,
    fun values size rank => threshold_select_count_le K basecase_size values size rank⟩
  · rw [hrun]
    simp only [List.countP_cons, Event.isFinal]
    simpa using hf1
  · rw [hrun]
    simp only [getLast?_cons3 _ _ _ _ hne]
    exact hf2

/-- Instance for C20: on the array of the specification. -/
theorem threshold_select_terminates_witness :
    ∃ v, (threshold_select 4 1 [3, -7, 2, -2, 5, -1]
      (([3, -7, 2, -2, 5, -1] : List Int).length : Int) 2).outcome = Outcome.value v :=
  (threshold_select_terminates 4 1 [3, -7, 2, -2, 5, -1] 2 (by decide) (by decide) (by decide)
    (by decide) (by decide)).1

/-! ## Determinism -/

/-- C15: determinism: on a valid input the result of `threshold_select` is a function of
`(V, r)` only: it is the same for every choice of the kernel constants, and the loop returns
the same value from any two candidate buffers that hold the same candidates in different
orders, whatever the scratch buffers contain (the sample is taken at a fixed stride and the
order of the compaction does not influence the selected value). -/
theorem threshold_select_deterministic (V : List Int) (r : Int)
    (hV : V ≠ []) (hr0 : 0 ≤ r) (hr : r < V.length) :
    (∃ v, ∀ K basecase_size : Nat, 0 < K → K ≤ 256 →
      (threshold_select K basecase_size V V.length r).outcome = Outcome.value v) ∧
    (∀ (K basecase_size fuel fuel' : Nat) (step step' : Int) (out out' inb inb' : List Int)
      (bucket_size rank : Int),
      0 < K → K ≤ 256 → 0 ≤ step → step ≤ 5 → 6 ≤ step + fuel →
      0 ≤ step' → step' ≤ 5 → 6 ≤ step' + fuel' →
      1 ≤ bucket_size → 0 ≤ rank → rank < bucket_size →
      bucket_size.toNat ≤ out.length → bucket_size.toNat ≤ inb.length →
      bucket_size.toNat ≤ out'.length → bucket_size.toNat ≤ inb'.length →
      (∀ x ∈ out.take bucket_size.toNat, 0 ≤ x) →
      (out'.take bucket_size.toNat).Perm (out.take bucket_size.toNat) →
      (select_loop K basecase_size fuel step out inb bucket_size rank).outcome =
        (select_loop K basecase_size fuel' step' out' inb' bucket_size rank).outcome) := by
  have hpos : 0 < V.length := List.length_pos.mpr hV
  refine ⟨?_, ?_⟩
  · have hl : r.toNat < (sortKeys (V.map key)).length := by
      rw [sortKeys_length, List.length_map]; omega
    refine ⟨(sortKeys (V.map key)).get ⟨r.toNat, hl⟩, ?_⟩
    intro K basecase_size hK hK2
    obtain ⟨v, _, _, _, _, hrun, hv, _⟩ := threshold_select_spec K basecase_size V V.length r
      hK hK2 (by omega) (by simp) hr0 hr
    rw [take_length_cast, List.get?_eq_get hl] at hv
    rw [hrun, Option.some.inj hv]
  · intro K basecase_size fuel fuel' step step' out out' inb inb' bs rank hK hK2 h0 h5 hf
      h0' h5' hf' hbs hr0' hr' hout hinb hout' hinb' hnn hperm
    have hl : rank.toNat < (sortKeys (out.take bs.toNat)).length := by
      rw [sortKeys_length, List.length_take]; omega
    have hv := List.get?_eq_get hl
    have hv' : (sortKeys (out'.take bs.toNat)).get? rank.toNat =
        some ((sortKeys (out.take bs.toNat)).get ⟨rank.toNat, hl⟩) := by
      rw [sortKeys_eq_of_perm hperm]; exact hv
    have hnn' : ∀ x ∈ out'.take bs.toNat, 0 ≤ x := fun x hx => hnn x (hperm.mem_iff.mp hx)
    rw [(select_loop_spec K basecase_size hK hK2 _ fuel step out inb bs rank h0 h5 hf hbs hr0'
        hr' hout hinb hnn hv).1,
      (select_loop_spec K basecase_size hK hK2 _ fuel' step' out' inb' bs rank h0' h5' hf' hbs
        hr0' hr' hout' hinb' hnn' hv').1]

/-- Instance for C15: on the array of the specification. -/
theorem threshold_select_deterministic_witness :
    ∃ v, ∀ K basecase_size : Nat, 0 < K → K ≤ 256 →
      (threshold_select K basecase_size [3, -7, 2, -2, 5, -1]
        (([3, -7, 2, -2, 5, -1] : List Int).length : Int) 2).outcome = Outcome.value v :=
  (threshold_select_deterministic [3, -7, 2, -2, 5, -1] 2 (by decide) (by decide)
    (by decide)).1

/-! ## The writes of the compaction -/

theorem foldl_store_none (ws : List (Int × Int)) : ws.foldl store none = none := by
  induction ws with
  | nil => rfl
  | cons w ws ih => simpa [List.foldl_cons, store] using ih

/-- The kernel `kernel::filter_bucket` stores the writes of its blocks one after the other. -/
theorem filter_blocks_eq_writes (values : List Int) (size bucket : Int) (oracles : List Nat)
    (partial_counts : List (List Int)) (out : List Int) (n : Nat) :
    (List.range n).foldl (filter_block values size bucket oracles partial_counts) (some out) =
      match filter_writes values size bucket oracles partial_counts n with
      | some ws => ws.foldl store (some out)
      | none => none := by
  induction n with
  | zero => simp [filter_writes]
  | succ n ih =>
    rw [List.range_succ, List.foldl_append, ih]
    simp only [List.foldl_cons, List.foldl_nil, filter_writes, filter_block]
    cases h1 : filter_writes values size bucket oracles partial_counts n with
    | none =>
      cases h2 : block_offset partial_counts n bucket with
      | none => rfl
      | some ofs => simp [foldl_store_none]
    | some ws =>
      cases h2 : block_offset partial_counts n bucket with
      | none => rfl
      | some ofs => simp [List.foldl_append]

theorem enumFrom_append' {α : Type} (l₁ l₂ : List α) (k : Nat) :
    (l₁ ++ l₂).enumFrom k = l₁.enumFrom k ++ l₂.enumFrom (k + l₁.length) := by
  induction l₁ generalizing k with
  | nil => simp
  | cons a l ih =>
    simp only [List.cons_append, List.enumFrom_cons, List.length_cons, ih]
    congr 3
    omega

theorem map_enumFrom_shift {α : Type} (l : List α) (k : Nat) (f : α → Int) :
    ((l.enumFrom 0).map fun kp => (((k : Nat) : Int) + (kp.1 : Int), f kp.2)) =
      (l.enumFrom k).map fun kp => ((kp.1 : Int), f kp.2) := by
  have : ∀ j, ((l.enumFrom j).map fun kp => (((k : Nat) : Int) + (kp.1 : Int), f kp.2)) =
      (l.enumFrom (k + j)).map fun kp => ((kp.1 : Int), f kp.2) := by
    induction l with
    | nil => intro j; rfl
    | cons a l ih =>
      intro j
      simp only [List.enumFrom_cons, List.map_cons, ih (j + 1)]
      congr 2
  simpa using this 0

theorem matching_append (tree : List Int) (t : Int) (l₁ l₂ : List Int) :
    matching tree t (l₁ ++ l₂) = matching tree t l₁ ++ matching tree t l₂ := by
  unfold matching
  rw [List.map_append, List.zip_append (by simp), List.filter_append]

theorem matching_map_key (tree : List Int) (t : Int) (l : List Int) :
    (matching tree t l).map (fun p => key p.1) = compacted tree t l :=
  zip_filter_map tree t l

theorem matching_length (tree : List Int) (t : Int) (l : List Int) :
    (matching tree t l).length = (compacted tree t l).length := by
  rw [← matching_map_key, List.length_map]

/-- After `ssss_count`, the writes of the first `b` blocks are the matching entries of the first
`b` partitions, written to consecutive positions from `0` on. -/
theorem filter_writes_spec (K : Nat) (tree values : List Int) (size t : Int)
    (ht : 0 ≤ t) (htK : t.toNat < K) :
    ∀ b, b ≤ num_blocks size →
      filter_writes values size t (oraclesOf tree values size)
        ((List.range (num_blocks size)).map fun b => (List.range K).map fun j =>
          ((((oraclesOf tree values size).take (b * partition_size)).count j : Nat) : Int)) b =
      some (((matching tree t ((values.take size.toNat).take (b * partition_size))).enumFrom
        0).map fun kp => ((kp.1 : Int), key kp.2.1)) := by
  intro b
  induction b with
  | zero => intro _; simp [filter_writes, matching]
  | succ b ih =>
    intro hb
    have hofs : block_offset ((List.range (num_blocks size)).map fun b =>
        (List.range K).map fun j =>
          ((((oraclesOf tree values size).take (b * partition_size)).count j : Nat) : Int)) b t =
        some (((matching tree t ((values.take size.toNat).take (b * partition_size))).length :
          Nat) : Int) := by
      unfold block_offset
      rw [List.get?_eq_getElem?, List.getElem?_map, List.getElem?_range (by omega)]
      simp only [Option.map_some', readAt, if_pos ht]
      rw [List.get?_eq_getElem?, List.getElem?_map, List.getElem?_range htK]
      simp only [Option.map_some']
      rw [matching_length, compacted_length tree t ht]
      simp [oraclesOf, List.map_take]
    have hitems : block_items (oraclesOf tree values size) size b =
        (block_items values size b).map fun v => classify tree (key v) := by
      rw [block_items_map]
      simp [block_items, oraclesOf, List.map_take, List.take_take]
    have hsplit : (values.take size.toNat).take ((b + 1) * partition_size) =
        (values.take size.toNat).take (b * partition_size) ++ block_items values size b := by
      rw [Nat.succ_mul, List.take_add]; rfl
    simp only [filter_writes, ih (by omega), hofs, block_writes, hitems, List.enum]
    rw [hsplit, matching_append, enumFrom_append', List.map_append]
    congr 2
    have := map_enumFrom_shift (matching tree t (block_items values size b))
      (matching tree t ((values.take size.toNat).take (b * partition_size))).length
      (fun p => key p.1)
    simpa [matching] using this

theorem map_fst_enumFrom_cast {α : Type} (l : List α) (f : α → Int) :
    ((l.enumFrom 0).map fun kp => ((kp.1 : Int), f kp.2)).map Prod.fst =
      (List.range l.length).map fun k : Nat => (k : Int) := by
  rw [List.map_map]
  have : (Prod.fst ∘ fun kp : Nat × α => ((kp.1 : Int), f kp.2)) =
      (fun k : Nat => (k : Int)) ∘ Prod.fst := rfl
  rw [this, ← List.map_map, List.enumFrom_map_fst, List.range_eq_range']

theorem map_snd_enumFrom {α : Type} (l : List α) (f : α → Int) :
    ((l.enumFrom 0).map fun kp => ((kp.1 : Int), f kp.2)).map Prod.snd = l.map f := by
  rw [List.map_map]
  have : (Prod.snd ∘ fun kp : Nat × α => ((kp.1 : Int), f kp.2)) = f ∘ Prod.snd := rfl
  rw [this, ← List.map_map, List.enumFrom_map_snd]

/-- C13: bucket compaction: after `ssss_count` on a valid working array, for every target bucket
`t` in `[0, K)`, the writes of `ssss_filter` go to the positions `0, 1, ..., n - 1` with
`n = boundary[t + 1] - boundary[t]`, each position once, and the keys written are, as a
multiset, the keys of the entries whose oracle equals `t`; so the first `n` entries of the
output buffer hold exactly these keys and the rest of the buffer is untouched. -/
theorem bucket_compaction (K : Nat) (values : List Int) (size t : Int) (out : List Int)
    (hK : 0 < K) (hK2 : K ≤ 256) (hs : 1 ≤ size) (hlen : size.toNat ≤ values.length)
    (ht0 : 0 ≤ t) (htK : t < K) :
    ∃ c lo hi ws, ssss_count K values size = some c ∧
      readAt c.total_counts t = some lo ∧ readAt c.total_counts (t + 1) = some hi ∧
      filter_writes values size t c.oracles c.partial_counts (num_blocks size) = some ws ∧
      ssss_filter values size c.oracles c.partial_counts t out = ws.foldl store (some out) ∧
      ws.map Prod.fst = (List.range (hi - lo).toNat).map (fun k : Nat => (k : Int)) ∧
      (ws.map Prod.fst).Nodup ∧
      (ws.map Prod.snd).Perm
        ((((values.take size.toNat).zip c.oracles).filter fun p =>
          decide ((p.2 : Int) = t)).map fun p => key p.1) ∧
      ((hi - lo).toNat ≤ out.length →
        ∃ out', ssss_filter values size c.oracles c.partial_counts t out = some out' ∧
          (out'.take (hi - lo).toNat).Perm
            ((((values.take size.toNat).zip c.oracles).filter fun p =>
              decide ((p.2 : Int) = t)).map fun p => key p.1) ∧
          out'.drop (hi - lo).toNat = out.drop (hi - lo).toNat) := by
  obtain ⟨tree, hsorted, htl, _, hc⟩ := ssss_count_spec K values size hK hK2 hs hlen
  have hol := oraclesOf_length tree values size hlen
  have htK' : t.toNat < K := by omega
  have hcover := num_blocks_cover size (by omega)
  have hall : (values.take size.toNat).take (num_blocks size * partition_size) =
      values.take size.toNat := by
    apply List.take_of_length_le
    simp only [List.length_take, num_blocks]
    omega
  have hw := filter_writes_spec K tree values size t ht0 htK' (num_blocks size) (le_refl _)
  rw [hall] at hw
  have hmatch : (((values.take size.toNat).zip (oraclesOf tree values size)).filter fun p =>
      decide ((p.2 : Int) = t)) = matching tree t (values.take size.toNat) := rfl
  have hmlen : ((matching tree t (values.take size.toNat)).length : Int) =
      (((oraclesOf tree values size).countP (fun x => decide (x < t.toNat + 1)) : Nat) : Int) -
        (((oraclesOf tree values size).countP (fun x => decide (x < t.toNat)) : Nat) : Int) := by
    rw [matching_length, compacted_length tree t ht0, countP_lt_succ_nat]
    simp only [oraclesOf]
    push_cast
    omega
  have hlo : readAt (boundaries K (oraclesOf tree values size)) t =
      some (((oraclesOf tree values size).countP (fun x => decide (x < t.toNat)) : Nat) : Int) := by
    rw [readAt_eq_getD _ _ ht0 (by rw [boundaries_length]; omega),
      boundaries_getD K _ _ (by omega)]
  have hhi : readAt (boundaries K (oraclesOf tree values size)) (t + 1) =
      some (((oraclesOf tree values size).countP (fun x => decide (x < t.toNat + 1)) : Nat) :
        Int) := by
    rw [readAt_eq_getD _ _ (by omega) (by rw [boundaries_length]; omega)]
    have : (t + 1).toNat = t.toNat + 1 := by omega
    rw [this, boundaries_getD K _ _ (by omega)]
  have hn : ((((oraclesOf tree values size).countP (fun x => decide (x < t.toNat + 1)) : Nat) :
      Int) - (((oraclesOf tree values size).countP (fun x => decide (x < t.toNat)) : Nat) :
        Int)).toNat = (matching tree t (values.take size.toNat)).length := by
    omega
  have hfold : ssss_filter values size (oraclesOf tree values size)
      ((List.range (num_blocks size)).map fun b => (List.range K).map fun j =>
        ((((oraclesOf tree values size).take (b * partition_size)).count j : Nat) : Int)) t out =
      (((matching tree t (values.take size.toNat)).enumFrom 0).map fun kp =>
        ((kp.1 : Int), key kp.2.1)).foldl store (some out) := by
    unfold ssss_filter filter_bucket
    rw [if_neg (by omega)]
    have := filter_blocks_eq_writes values size t (oraclesOf tree values size)
      ((List.range (num_blocks size)).map fun b => (List.range K).map fun j =>
        ((((oraclesOf tree values size).take (b * partition_size)).count j : Nat) : Int))
      out (num_blocks size)
    rw [hw] at this
    exact this
  refine ⟨_, _, _, _, hc, hlo, hhi, hw, hfold, ?_, ?_, ?_, ?_⟩
  · rw [hn]
    exact map_fst_enumFrom_cast _ (fun p : Int × Nat => key p.1)
  · rw [map_fst_enumFrom_cast _ (fun p : Int × Nat => key p.1)]
    exact (List.nodup_range _).map (fun a b hab => by simpa using hab)
  · rw [map_snd_enumFrom _ (fun p : Int × Nat => key p.1)]
    exact List.Perm.refl _
  · intro hout
    rw [hn] at hout ⊢
    refine ⟨_, ssss_filter_spec K tree values size t out (by omega) hlen ht0 htK'
      (by rw [← matching_length]; exact hout), ?_, ?_⟩
    · rw [List.take_left' (by rw [matching_length]), ← matching_map_key]
      exact List.Perm.refl _
    · rw [List.drop_left' (by rw [matching_length]), matching_length]

/-- Instance for C13: on the array of the specification, bucket `0` of four buckets and an
output buffer of three entries. -/
theorem bucket_compaction_witness :
    ∃ c lo hi ws, ssss_count 4 [3, -7, 2, -2, 5, -1] 6 = some c ∧
      readAt c.total_counts 0 = some lo ∧ readAt c.total_counts (0 + 1) = some hi ∧
      filter_writes [3, -7, 2, -2, 5, -1] 6 0 c.oracles c.partial_counts (num_blocks 6) =
        some ws ∧
      ssss_filter [3, -7, 2, -2, 5, -1] 6 c.oracles c.partial_counts 0 [0, 0, 0] =
        ws.foldl store (some [0, 0, 0]) ∧
      ws.map Prod.fst = (List.range (hi - lo).toNat).map (fun k : Nat => (k : Int)) ∧
      (ws.map Prod.fst).Nodup ∧
      (ws.map Prod.snd).Perm
        ((((([3, -7, 2, -2, 5, -1] : List Int).take (6 : Int).toNat).zip c.oracles).filter
          fun p => decide ((p.2 : Int) = 0)).map fun p => key p.1) ∧
      ((hi - lo).toNat ≤ ([0, 0, 0] : List Int).length →
        ∃ out', ssss_filter [3, -7, 2, -2, 5, -1] 6 c.oracles c.partial_counts 0 [0, 0, 0] =
            some out' ∧
          (out'.take (hi - lo).toNat).Perm
            ((((([3, -7, 2, -2, 5, -1] : List Int).take (6 : Int).toNat).zip c.oracles).filter
              fun p => decide ((p.2 : Int) = 0)).map fun p => key p.1) ∧
          out'.drop (hi - lo).toNat = ([0, 0, 0] : List Int).drop (hi - lo).toNat) :=
  bucket_compaction 4 [3, -7, 2, -2, 5, -1] 6 0 [0, 0, 0] (by decide) (by decide) (by decide)
    (by decide) (by decide) (by decide)

/-! ## Collaborators that are not implemented -/

/-- C14: the unimplemented collaborators fail loudly and immediately: every call of
`threshold_filter` and of `spgeam` on the HIP backend, for any arguments, raises the
not-implemented error and leaves the output arrays unchanged. -/
theorem not_implemented_collaborators (a b : CsrMatrix) (threshold : Int)
    (alpha beta : List (List Int)) (out : OutputArrays) :
    threshold_filter a threshold out = (Except.error Exception.NotImplemented, out) ∧
    spgeam alpha a beta b out = (Except.error Exception.NotImplemented, out) :=
  ⟨rfl, rfl⟩

/-! ## The two final selections -/

/-- C21: the fallback and the base-case strategy are interchangeable: for every candidate buffer
that holds at least `bucket_size` entries, every `bucket_size ≥ 1` that does not exceed the
base-case capacity and every rank in `[0, bucket_size)`, `std::nth_element` over the first
`bucket_size` entries at position `rank` and `basecase_select` yield the same value, the
`rank`-th smallest of those `bucket_size` entries; the entries of the buffer beyond
`bucket_size` influence neither result. -/
theorem fallback_matches_basecase (basecase_size : Nat) (buffer : List Int)
    (bucket_size rank : Int) (h1 : 1 ≤ bucket_size) (hcap : bucket_size ≤ basecase_size)
    (hlen : bucket_size.toNat ≤ buffer.length) (hr0 : 0 ≤ rank) (hr : rank < bucket_size) :
    ∃ v, nth_element buffer bucket_size rank = some v ∧
      basecase_select basecase_size buffer bucket_size rank = some v ∧
      (sortKeys (buffer.take bucket_size.toNat)).get? rank.toNat = some v ∧
      v ∈ buffer.take bucket_size.toNat ∧
      Outcome.ofOption (nth_element buffer bucket_size rank) =
        Outcome.ofOption (basecase_select basecase_size buffer bucket_size rank) ∧
      ∀ buffer' : List Int,
        buffer'.take bucket_size.toNat = buffer.take bucket_size.toNat →
        nth_element buffer' bucket_size rank = some v ∧
        basecase_select basecase_size buffer' bucket_size rank = some v := by
  have hsl : (sortKeys (buffer.take bucket_size.toNat)).length = bucket_size.toNat := by
    rw [sortKeys_length, List.length_take]; omega
  have hlt : rank.toNat < (sortKeys (buffer.take bucket_size.toNat)).length := by
    rw [hsl]; omega
  obtain ⟨v, hv⟩ : ∃ v, (sortKeys (buffer.take bucket_size.toNat)).get? rank.toNat = some v :=
    ⟨_, List.get?_eq_get hlt⟩
  have hn : ∀ b : List Int, b.take bucket_size.toNat = buffer.take bucket_size.toNat →
      nth_element b bucket_size rank = some v ∧
      basecase_select basecase_size b bucket_size rank = some v := by
    intro b hb
    have hbl : ¬ b.length < bucket_size.toNat := by
      intro hlt'
      have h2 := congrArg List.length hb
      rw [List.length_take, List.length_take] at h2
      omega
    refine ⟨?_, ?_⟩
    · unfold nth_element
      rw [if_neg hbl, hb, readAt_sort _ _ hr0, hv]
    · unfold basecase_select
      rw [if_neg (by
        intro h
        rcases h with h | h
        · exact hbl h
        · omega), hb, readAt_sort _ _ hr0, hv]
  have h0 := hn buffer rfl
  refine ⟨v, h0.1, h0.2, hv, ?_, ?_, hn⟩
  · exact mem_sortKeys.mp (List.get?_mem hv)
  · rw [h0.1, h0.2]

/-- Instance for C21: the third smallest of the first four entries of `[5, 1, 4, 2, 9, 0]`. -/
theorem fallback_matches_basecase_witness :
    ∃ v, nth_element [5, 1, 4, 2, 9, 0] 4 2 = some v ∧
      basecase_select 4 [5, 1, 4, 2, 9, 0] 4 2 = some v ∧
      (sortKeys (([5, 1, 4, 2, 9, 0] : List Int).take (4 : Int).toNat)).get? (2 : Int).toNat =
        some v ∧
      v ∈ ([5, 1, 4, 2, 9, 0] : List Int).take (4 : Int).toNat ∧
      Outcome.ofOption (nth_element [5, 1, 4, 2, 9, 0] 4 2) =
        Outcome.ofOption (basecase_select 4 [5, 1, 4, 2, 9, 0] 4 2) ∧
      ∀ buffer' : List Int,
        buffer'.take (4 : Int).toNat = ([5, 1, 4, 2, 9, 0] : List Int).take (4 : Int).toNat →
        nth_element buffer' 4 2 = some v ∧ basecase_select 4 buffer' 4 2 = some v :=
  fallback_matches_basecase 4 [5, 1, 4, 2, 9, 0] 4 2 (by decide) (by decide) (by decide)
    (by decide) (by decide)

/-! ## The search tree -/

/-- C22: the search tree built by `build_searchtree` from the strided sample has non-decreasing
splitters for every working array of size at least `1`, also when the array is smaller than the
sample and when keys repeat; it is the tree that `ssss_count` returns. -/
theorem searchtree_non_decreasing (K : Nat) (values : List Int) (size : Int)
    (hs : 1 ≤ size) (hlen : size.toNat ≤ values.length) :
    ∃ tree, build_searchtree K values size = some tree ∧ tree.length = K - 1 ∧
      NonDecreasing tree (K - 1) ∧ tree.Sorted (· ≤ ·) ∧
      ∀ c, ssss_count K values size = some c → c.tree = tree := by
  obtain ⟨tree, htree, hsorted, htl, _⟩ := build_searchtree_spec K values size hs hlen
  refine ⟨tree, htree, htl, ?_, hsorted, ?_⟩
  · have := nonDecreasing_of_sorted tree hsorted
    rw [htl] at this
    exact this
  · intro c hc
    unfold ssss_count at hc
    simp only [htree] at hc
    split at hc
    · exact absurd hc (by simp)
    · simp only [Option.some.injEq] at hc
      rw [← hc]

/-- Instance for C22: an array of two entries under a sample of four probes, which reads each
entry twice. -/
theorem searchtree_non_decreasing_witness :
    build_searchtree 4 [3, -7] 2 = some [3, 7, 7] ∧
    build_searchtree 4 [2, -2, 2] 3 = some [2, 2, 2] ∧
    ∃ tree, build_searchtree 4 [3, -7] 2 = some tree ∧ tree.length = 4 - 1 ∧
      NonDecreasing tree (4 - 1) ∧ tree.Sorted (· ≤ ·) ∧
      ∀ c, ssss_count 4 [3, -7] 2 = some c → c.tree = tree :=
  ⟨by decide, by decide, searchtree_non_decreasing 4 [3, -7] 2 (by decide) (by decide)⟩

/-! ## The grid of the two passes -/

theorem num_blocks_eq (size : Int) (hs : 0 ≤ size) :
    ceildiv (ceildiv size items_per_thread) default_block_size = (size + 1) / 2 / 512 +
      (if ((size + 1) / 2) % 512 = 0 then 0 else 1) := by
  have h1 : ceildiv size items_per_thread = (size + 2 - 1) / 2 :=
    ceildiv_nonneg_eq size 2 hs (by decide)
  have h2 : 0 ≤ ceildiv size items_per_thread := by rw [h1]; omega
  have h3 := ceildiv_nonneg_eq (ceildiv size items_per_thread) 512 h2 (by decide)
  show ceildiv (ceildiv size items_per_thread) 512 = _
  rw [h3, h1]
  split <;> omega

theorem num_blocks_cast (size : Int) (hs : 0 ≤ size) :
    ((num_blocks size : Nat) : Int) =
      ceildiv (ceildiv size items_per_thread) default_block_size := by
  unfold num_blocks
  rw [Int.toNat_of_nonneg]
  rw [num_blocks_eq size hs]
  split <;> omega

theorem num_blocks_bounds (size : Int) (hs : 1 ≤ size) :
    ((num_blocks size : Int) - 1) * 1024 < size ∧ size ≤ (num_blocks size : Int) * 1024 := by
  rw [num_blocks_cast size (by omega), num_blocks_eq size (by omega)]
  split <;> omega

theorem num_blocks_mono (m n : Int) (hm : 0 ≤ m) (hmn : m ≤ n) :
    num_blocks m ≤ num_blocks n := by
  have h1 := num_blocks_cast m hm
  have h2 := num_blocks_cast n (by omega)
  rw [num_blocks_eq m hm] at h1
  rw [num_blocks_eq n (by omega)] at h2
  have : (num_blocks m : Int) ≤ num_blocks n := by
    rw [h1, h2]
    split <;> split <;> omega
  exact_mod_cast this

theorem ssss_count_rows (K : Nat) (values : List Int) (size : Int) (c : Counts)
    (hc : ssss_count K values size = some c) :
    c.partial_counts.length = num_blocks size ∧ ∀ row ∈ c.partial_counts, row.length = K := by
  unfold ssss_count at hc
  simp only [] at hc
  split at hc
  · exact absurd hc (by simp)
  · split at hc
    · exact absurd hc (by simp)
    · simp only [block_prefix_sum, Option.some.injEq] at hc
      rw [← hc]
      refine ⟨?_, ?_⟩
      · simp [num_blocks]
      · intro row hrow
        simp only [List.mem_map] at hrow
        obtain ⟨b, _, rfl⟩ := hrow
        simp

/-- C23: partitions tile the array exactly: for every `size ≥ 1` the number of blocks
`num_blocks = ceildiv(ceildiv(size, items_per_thread), default_block_size)` satisfies
`(num_blocks - 1) * 1024 < size ≤ num_blocks * 1024`, the partitions of the blocks put one after
the other are the working array, and `ssss_count` and `ssss_filter` use the same number of
blocks for the same size: the count pass leaves one row of `searchtree_width` counts per block
and the filter pass reads its offsets in exactly these rows. -/
theorem partitions_tile (size : Int) (hs : 1 ≤ size) :
    ceildiv (ceildiv size items_per_thread) default_block_size = (num_blocks size : Int) ∧
    ((num_blocks size : Int) - 1) * 1024 < size ∧ size ≤ (num_blocks size : Int) * 1024 ∧
    (∀ values : List Int,
      ((List.range (num_blocks size)).map (block_items values size)).flatten =
        values.take size.toNat) ∧
    (∀ (values : List Int) (oracles : List Nat) (partial_counts : List (List Int))
      (bucket : Int) (out : List Int),
      ssss_filter values size oracles partial_counts bucket out =
        filter_bucket values size bucket oracles partial_counts out (num_blocks size)) ∧
    (∀ (K : Nat) (values : List Int) (c : Counts), ssss_count K values size = some c →
      c.partial_counts.length = num_blocks size ∧
      (∀ row ∈ c.partial_counts, row.length = K) ∧
      ∀ (b : Nat) (bucket : Int), b < num_blocks size → 0 ≤ bucket → bucket < K →
        ∃ ofs, block_offset c.partial_counts b bucket = some ofs) := by
  have hcast := num_blocks_cast size (by omega)
  have hb := num_blocks_bounds size hs
  refine ⟨hcast.symm, hb.1, hb.2, ?_, ?_, ?_⟩
  · intro values
    rw [blocks_flatten]
    apply List.take_of_length_le
    have := num_blocks_cover size (by omega)
    rw [List.length_take]
    unfold num_blocks
    omega
  · intro values oracles partial_counts bucket out
    unfold ssss_filter
    simp only [← hcast]
  · intro K values c hc
    obtain ⟨hlen, hrows⟩ := ssss_count_rows K values size c hc
    refine ⟨hlen, hrows, ?_⟩
    intro b bucket hb' h0 hK
    unfold block_offset
    have hlt : b < c.partial_counts.length := by omega
    rw [List.get?_eq_get hlt]
    have hrow := hrows _ (List.get_mem c.partial_counts b hlt)
    exact ⟨_, readAt_eq_getD _ bucket h0 (by rw [hrow]; omega)⟩

/-- Instance for C23: `1025` entries need two blocks, `1024` entries one. -/
theorem partitions_tile_witness :
    num_blocks 1025 = 2 ∧ num_blocks 1024 = 1 ∧
    ((num_blocks 1025 : Int) - 1) * 1024 < 1025 ∧ (1025 : Int) ≤ (num_blocks 1025 : Int) * 1024 :=
  ⟨by decide, by decide, (partitions_tile 1025 (by decide)).2.1,
    (partitions_tile 1025 (by decide)).2.2.1⟩

/-! ## Buckets and the order of the keys -/

theorem oraclesOf_getD (tree values : List Int) (size : Int) (i : Nat) (hi : i < size.toNat)
    (hlen : size.toNat ≤ values.length) :
    (oraclesOf tree values size).getD i 0 = classify tree (key (values.getD i 0)) := by
  unfold oraclesOf
  have h1 : i < (values.take size.toNat).length := by rw [List.length_take]; omega
  rw [List.getD_eq_getElem?_getD, List.getElem?_map, List.getElem?_eq_getElem h1,
    List.getElem_take, List.getD_eq_getElem _ _ (show i < values.length by omega)]
  rfl

/-- C24: bucket order is consistent with key order: for the tree and the oracles computed by one
`ssss_count` pass, any two entries `x`, `y` of the working array with `bucket(x) < bucket(y)`
satisfy `key(x) ≤ key(y)` (and the keys differ), entries with equal keys receive the same bucket
id, and for every valid rank the order statistic of that rank lies in the bucket that the rank
location picks. -/
theorem bucket_order_consistent (K : Nat) (values : List Int) (size : Int)
    (hK : 0 < K) (hK2 : K ≤ 256) (hs : 1 ≤ size) (hlen : size.toNat ≤ values.length) :
    ∃ c, ssss_count K values size = some c ∧ c.oracles.length = size.toNat ∧
      (∀ i, i < size.toNat →
        c.oracles.getD i 0 = classify c.tree (key (values.getD i 0))) ∧
      (∀ i j, i < size.toNat → j < size.toNat →
        c.oracles.getD i 0 < c.oracles.getD j 0 →
        key (values.getD i 0) ≤ key (values.getD j 0) ∧
          key (values.getD i 0) ≠ key (values.getD j 0)) ∧
      (∀ i j, i < size.toNat → j < size.toNat →
        key (values.getD i 0) = key (values.getD j 0) →
        c.oracles.getD i 0 = c.oracles.getD j 0) ∧
      (∀ rank, 0 ≤ rank → rank < size →
        ∃ v, (sortKeys ((values.take size.toNat).map key)).get? rank.toNat = some v ∧
          ((classify c.tree v : Nat) : Int) = locate_bucket K c.total_counts rank) := by
  obtain ⟨tree, hsorted, htl, hmem, hc⟩ := ssss_count_spec K values size hK hK2 hs hlen
  cases hcs : ssss_count K values size with
  | none => rw [hc] at hcs; exact absurd hcs (by simp)
  | some c =>
    have hcd := Option.some.inj (hcs.symm.trans hc)
    have htree : c.tree = tree := by rw [hcd]
    have hor : c.oracles = oraclesOf tree values size := by rw [hcd]
    refine ⟨c, rfl, ?_, ?_, ?_, ?_, ?_⟩
    · rw [hor]; exact oraclesOf_length tree values size hlen
    · intro i hi
      rw [hor, htree]
      exact oraclesOf_getD tree values size i hi hlen
    · intro i j hi hj hlt
      rw [hor] at hlt
      simp only [oraclesOf_getD tree values size _ hi hlen,
        oraclesOf_getD tree values size _ hj hlen] at hlt
      have hne : key (values.getD i 0) ≠ key (values.getD j 0) := by
        intro h
        rw [h] at hlt
        exact lt_irrefl _ hlt
      refine ⟨?_, hne⟩
      by_contra hgt
      have := classify_mono tree hsorted (key (values.getD j 0)) (key (values.getD i 0))
        (by omega)
      omega
    · intro i j hi hj heq
      rw [hor]
      simp only [oraclesOf_getD tree values size _ hi hlen,
        oraclesOf_getD tree values size _ hj hlen, heq]
    · intro rank hr0 hr
      obtain ⟨c', lo, hi, hc', hb0, hbK, hlo, hhi, hlo0, hrk0, hrk, hle, hcl, hget, _⟩ :=
        refine_pass K values size rank hK hK2 hs hlen hr0 hr
      have hcc : c' = c := Option.some.inj (hc'.symm.trans hcs)
      subst hcc
      have hlt : (rank - lo).toNat < (sortKeys (compacted c'.tree
          (locate_bucket K c'.total_counts rank) (values.take size.toNat))).length := by
        rw [sortKeys_length, hcl]; omega
      obtain ⟨v, hv⟩ : ∃ v, (sortKeys (compacted c'.tree
          (locate_bucket K c'.total_counts rank) (values.take size.toNat))).get?
            (rank - lo).toNat = some v := ⟨_, List.get?_eq_get hlt⟩
      refine ⟨v, ?_, ?_⟩
      · rw [← hget]
        exact hv
      · have hm := mem_sortKeys.mp (List.get?_mem hv)
        rw [compacted_eq_filter_keys c'.tree _ hb0] at hm
        have := (List.mem_filter.mp hm).2
        simp only [decide_eq_true_eq] at this
        rw [this, Int.toNat_of_nonneg hb0]

/-- Instance for C24: on the array of the specification with four buckets. -/
theorem bucket_order_consistent_witness :
    ∃ c, ssss_count 4 [3, -7, 2, -2, 5, -1] 6 = some c ∧ c.oracles.length = (6 : Int).toNat ∧
      (∀ i, i < (6 : Int).toNat →
        c.oracles.getD i 0 =
          classify c.tree (key (([3, -7, 2, -2, 5, -1] : List Int).getD i 0))) ∧
      (∀ i j, i < (6 : Int).toNat → j < (6 : Int).toNat →
        c.oracles.getD i 0 < c.oracles.getD j 0 →
        key (([3, -7, 2, -2, 5, -1] : List Int).getD i 0) ≤
            key (([3, -7, 2, -2, 5, -1] : List Int).getD j 0) ∧
          key (([3, -7, 2, -2, 5, -1] : List Int).getD i 0) ≠
            key (([3, -7, 2, -2, 5, -1] : List Int).getD j 0)) ∧
      (∀ i j, i < (6 : Int).toNat → j < (6 : Int).toNat →
        key (([3, -7, 2, -2, 5, -1] : List Int).getD i 0) =
          key (([3, -7, 2, -2, 5, -1] : List Int).getD j 0) →
        c.oracles.getD i 0 = c.oracles.getD j 0) ∧
      (∀ rank, 0 ≤ rank → rank < 6 →
        ∃ v, (sortKeys ((([3, -7, 2, -2, 5, -1] : List Int).take (6 : Int).toNat).map
            key)).get? rank.toNat = some v ∧
          ((classify c.tree v : Nat) : Int) = locate_bucket 4 c.total_counts rank) :=
  bucket_order_consistent 4 [3, -7, 2, -2, 5, -1] 6 (by decide) (by decide) (by decide)
    (by decide)

/-! ## Sizes along a run -/

theorem loopTrace_sizes (K bc : Nat) (step bs rank : Int) (tr : List Event)
    (h : LoopTrace K bc step bs rank tr) (hbs : 1 ≤ bs) :
    (∀ e ∈ tr, 1 ≤ e.size ∧ e.size ≤ bs) ∧ (tr.map Event.size).Sorted (· ≥ ·) := by
  induction h with
  | base step bs rank h =>
    refine ⟨?_, by simp⟩
    intro e he
    simp only [List.mem_singleton] at he
    subst he
    exact ⟨hbs, le_refl _⟩
  | fallback step bs rank bucket bs2 rk2 h hstep hb0 hbK hsz hle hr0 hr =>
    refine ⟨?_, ?_⟩
    · intro e he
      simp only [List.mem_cons, List.mem_singleton, List.not_mem_nil, or_false] at he
      rcases he with rfl | rfl | rfl | rfl
      · exact ⟨hbs, le_refl _⟩
      · exact ⟨hbs, le_refl _⟩
      · exact ⟨hsz, hle⟩
      · exact ⟨hsz, hle⟩
    · show List.Sorted (· ≥ ·) [bs, bs, bs2, bs2]
      simp only [List.sorted_cons, List.mem_cons, List.not_mem_nil, or_false,
        List.sorted_nil, and_true]
      refine ⟨?_, ?_, ?_, ?_⟩
      · rintro b (rfl | rfl | rfl)
        · exact le_refl _
        · exact hle
        · exact hle
      · rintro b (rfl | rfl)
        · exact hle
        · exact hle
      · rintro b rfl
        exact le_refl _
      · intro b hb
        exact absurd hb (by simp)
  | iter step bs rank bucket bs2 rk2 tr h hstep hb0 hbK hsz hle hr0 hr hrest ih =>
    obtain ⟨ih1, ih2⟩ := ih hsz
    refine ⟨?_, ?_⟩
    · intro e he
      simp only [List.mem_cons] at he
      rcases he with rfl | rfl | rfl | he
      · exact ⟨hbs, le_refl _⟩
      · exact ⟨hbs, le_refl _⟩
      · exact ⟨hsz, hle⟩
      · have := ih1 e he
        exact ⟨this.1, le_trans this.2 hle⟩
    · show List.Sorted (· ≥ ·) (bs :: bs :: bs2 :: tr.map Event.size)
      have hall : ∀ b ∈ tr.map Event.size, b ≤ bs2 := by
        intro b hb
        obtain ⟨e, he, rfl⟩ := List.mem_map.mp hb
        exact (ih1 e he).2
      simp only [List.sorted_cons, List.mem_cons]
      refine ⟨?_, ?_, ?_, ih2⟩
      · rintro b (rfl | rfl | hb)
        · exact le_refl _
        · exact hle
        · exact le_trans (hall b hb) hle
      · rintro b (rfl | hb)
        · exact hle
        · exact le_trans (hall b hb) hle
      · intro b hb
        exact hall b hb

theorem max_num_blocks_eq (size : Int) (hs : 0 ≤ size) :
    max_num_blocks size = (num_blocks size : Int) := (num_blocks_cast size hs).symm

/-- C25: the scratch buffers allocated once for the original size suffice in every iteration:
on a valid input the run ends with a value (no access out of bounds), the sizes of the steps of
the loop never grow (each new `bucket_size` is at most the previous working size, hence at most
the first `bucket_size` and at most `size`), so in every loop pass
`ceildiv(ceildiv(bucket_size, 2), 512) ≤ max_num_blocks` (`partial_counts` has room for
`bucket_count * num_blocks` entries), the oracle array of length `size` covers `bucket_size`
oracles, and both tmp buffers, of length the first `bucket_size`, hold the compacted output;
the oracles and the rows of counts that `ssss_count` produces for such a working size fit. -/
theorem scratch_buffers_suffice (K basecase_size : Nat) (V : List Int) (r : Int)
    (hK : 0 < K) (hK2 : K ≤ 256) (hV : V ≠ []) (hr0 : 0 ≤ r) (hr : r < V.length) :
    ∃ v bucket bucket_size rank' tr,
      threshold_select K basecase_size V V.length r =
        ⟨Event.ssss_count V.length :: Event.locate bucket bucket_size rank' ::
          Event.ssss_filter V.length bucket :: tr, Outcome.value v⟩ ∧
      1 ≤ bucket_size ∧ bucket_size ≤ V.length ∧
      (tr.map Event.size).Sorted (· ≥ ·) ∧
      (∀ e ∈ tr, 1 ≤ e.size ∧ e.size ≤ bucket_size ∧ e.size ≤ V.length ∧
        ceildiv (ceildiv e.size items_per_thread) default_block_size ≤
          max_num_blocks V.length ∧
        (K : Int) * ceildiv (ceildiv e.size items_per_thread) default_block_size ≤
          (K : Int) * max_num_blocks V.length ∧
        e.size.toNat ≤ (List.replicate bucket_size.toNat (0 : Int)).length) ∧
      (∀ (n : Int) (values : List Int) (c : Counts), 1 ≤ n → n ≤ V.length →
        n.toNat ≤ values.length → ssss_count K values n = some c →
        c.oracles.length = n.toNat ∧ c.oracles.length ≤ V.length ∧
        c.partial_counts.length = num_blocks n ∧
        ((c.partial_counts.length : Nat) : Int) ≤ max_num_blocks V.length ∧
        ∀ row ∈ c.partial_counts, row.length = K) := by
  have hpos : 0 < V.length := List.length_pos.mpr hV
  obtain ⟨v, b0, bs0, rk0, tr, hrun, _, _, _, hbs1, hbsle, _, _, hloop⟩ :=
    threshold_select_spec K basecase_size V V.length r hK hK2 (by omega) (by simp) hr0 hr
  obtain ⟨hsizes, hsorted⟩ := loopTrace_sizes K basecase_size 0 bs0 rk0 tr hloop hbs1
  have hmax := max_num_blocks_eq V.length (by omega)
  have hblocks : ∀ n : Int, 1 ≤ n → n ≤ V.length →
      ceildiv (ceildiv n items_per_thread) default_block_size ≤ max_num_blocks V.length := by
    intro n hn1 hn
    rw [hmax, ← num_blocks_cast n (by omega)]
    exact_mod_cast num_blocks_mono n V.length (by omega) hn
  refine ⟨v, b0, bs0, rk0, tr, hrun, hbs1, hbsle, hsorted, ?_, ?_⟩
  · intro e he
    obtain ⟨h1, h2⟩ := hsizes e he
    have hb := hblocks e.size h1 (by omega)
    refine ⟨h1, h2, by omega, hb, ?_, ?_⟩
    · exact mul_le_mul_of_nonneg_left hb (by positivity)
    · rw [List.length_replicate]
      omega
  · intro n values c hn1 hn hlen hc
    obtain ⟨tree, _, _, _, hc'⟩ := ssss_count_spec K values n hK hK2 hn1 hlen
    have hcd := Option.some.inj (hc.symm.trans hc')
    have hor : c.oracles = oraclesOf tree values n := by rw [hcd]
    have hol : c.oracles.length = n.toNat := by
      rw [hor]; exact oraclesOf_length tree values n hlen
    obtain ⟨hrows, hrowlen⟩ := ssss_count_rows K values n c hc
    refine ⟨hol, by omega, hrows, ?_, hrowlen⟩
    rw [hrows, num_blocks_cast n (by omega)]
    exact hblocks n hn1 hn

/-- Instance for C25: on the array of the specification, with four buckets and a base-case
threshold of `1`. -/
theorem scratch_buffers_suffice_witness :
    ∃ v bucket bucket_size rank' tr,
      threshold_select 4 1 [3, -7, 2, -2, 5, -1]
          (([3, -7, 2, -2, 5, -1] : List Int).length : Int) 2 =
        ⟨Event.ssss_count (([3, -7, 2, -2, 5, -1] : List Int).length : Int) ::
          Event.locate bucket bucket_size rank' ::
          Event.ssss_filter (([3, -7, 2, -2, 5, -1] : List Int).length : Int) bucket :: tr,
          Outcome.value v⟩ ∧
      1 ≤ bucket_size ∧ bucket_size ≤ (([3, -7, 2, -2, 5, -1] : List Int).length : Int) ∧
      (tr.map Event.size).Sorted (· ≥ ·) ∧
      (∀ e ∈ tr, 1 ≤ e.size ∧ e.size ≤ bucket_size ∧
        e.size ≤ (([3, -7, 2, -2, 5, -1] : List Int).length : Int) ∧
        ceildiv (ceildiv e.size items_per_thread) default_block_size ≤
          max_num_blocks (([3, -7, 2, -2, 5, -1] : List Int).length : Int) ∧
        ((4 : Nat) : Int) * ceildiv (ceildiv e.size items_per_thread) default_block_size ≤
          ((4 : Nat) : Int) * max_num_blocks (([3, -7, 2, -2, 5, -1] : List Int).length : Int) ∧
        e.size.toNat ≤ (List.replicate bucket_size.toNat (0 : Int)).length) ∧
      (∀ (n : Int) (values : List Int) (c : Counts), 1 ≤ n →
        n ≤ (([3, -7, 2, -2, 5, -1] : List Int).length : Int) →
        n.toNat ≤ values.length → ssss_count 4 values n = some c →
        c.oracles.length = n.toNat ∧
        c.oracles.length ≤ ([3, -7, 2, -2, 5, -1] : List Int).length ∧
        c.partial_counts.length = num_blocks n ∧
        ((c.partial_counts.length : Nat) : Int) ≤
          max_num_blocks (([3, -7, 2, -2, 5, -1] : List Int).length : Int) ∧
        ∀ row ∈ c.partial_counts, row.length = 4) :=
  scratch_buffers_suffice 4 1 [3, -7, 2, -2, 5, -1] 2 (by decide) (by decide) (by decide)
    (by decide) (by decide)

end ParIlut
